import Mathlib

/-!
# Verification of hono-idempotency

A shallow embedding of the idempotency middleware for Hono
(`src/middleware.ts`), its in-memory store (`src/stores/memory.ts`),
the Durable Object store (`src/stores/cloudflare-kv.ts`), the Redis
store (`src/stores/redis.ts`), the error model (`src/errors.ts`) and
the composite store-key construction, together with proofs of the
specification's claims about them.

Conventions of the embedding:
* JavaScript `Date.now()` timestamps are `Int` milliseconds, passed
  explicitly to every operation that reads the clock.
* A JavaScript `Map` is an insertion-ordered association list
  `List (String × α)`; `Map.set` updates in place when the key exists
  and appends otherwise, `Map.delete` removes the entry, iteration is
  list order — matching the JS iteration contract.
* `async` code awaits every store call, and JavaScript is
  single-threaded between awaits, so each store operation is an atomic
  step on the store state; a run of the middleware is a function from
  (request, handler outcome, store state, clock) to an outcome and the
  final store state.
* Fallible host primitives (`JSON.parse`) are modelled as
  `Option`-returning parameters; code that lets their exception escape
  is modelled as returning `Except`.
-/

namespace HonoIdempotency

/-- Model of `StoredResponse` from `src/types.ts`: status, header map, body text. -/
structure StoredResponse where
  status : Nat
  headers : List (String × String)
  body : String
  deriving Repr, DecidableEq

/-- The `status` field of `IdempotencyRecord` (`src/types.ts`). -/
inductive RecStatus where
  | processing
  | completed
  deriving Repr, DecidableEq

/-- Model of `IdempotencyRecord` from `src/types.ts`. -/
structure IdemRecord where
  key : String
  fingerprint : String
  status : RecStatus
  response : Option StoredResponse := none
  createdAt : Int
  deriving Repr, DecidableEq

/-! ## Association-list model of a JavaScript `Map` -/

/-- Model of `map.get k`: first value bound to `k`. -/
def mapGet (s : List (String × α)) (k : String) : Option α :=
  (s.find? (fun e => e.1 == k)).map (·.2)

/-- Model of `map.delete k`: remove the binding of `k` (if any). -/
def mapDelete (s : List (String × α)) (k : String) : List (String × α) :=
  s.filter (fun e => e.1 ≠ k)

/-- Model of `map.set k v`: update in place when present, else append (JS `Map`
keeps the original insertion position on overwrite). -/
def mapSet (s : List (String × α)) (k : String) (v : α) : List (String × α) :=
  if (s.find? (fun e => e.1 == k)).isSome then
    s.map (fun e => if e.1 == k then (k, v) else e)
  else
    s ++ [(k, v)]

/-! ## In-memory store (`src/stores/memory.ts`) -/

/-- Model of `isExpired` from `memoryStore`: `Date.now() - record.createdAt >= ttl`. -/
def isExpired (ttl now createdAt : Int) : Bool :=
  now - createdAt ≥ ttl

/-- The backing `Map` of `memoryStore`. -/
abbrev MemState := List (String × IdemRecord)

/-- The lazy `sweep` in `memoryStore`: drop every expired entry. -/
def sweep (ttl now : Int) (s : MemState) : MemState :=
  s.filter (fun e => ! isExpired ttl now e.2.createdAt)

/-- Model of `memoryStore.get`: absent or expired (expired entries are deleted
on access) ↦ `undefined`, else the record. Returns the new map state. -/
def memGet (ttl now : Int) (s : MemState) (k : String) :
    Option IdemRecord × MemState :=
  match mapGet s k with
  | none => (none, s)
  | some r =>
    if isExpired ttl now r.createdAt then (none, mapDelete s k)
    else (some r, s)

/-- One round of the eviction `while` loop body: delete the first
non-`processing` entry, or `none` when no entry is evictable. -/
def evictOnce (s : MemState) : Option MemState :=
  match s.find? (fun e => e.2.status != RecStatus.processing) with
  | none => none
  | some e => some (mapDelete s e.1)

/-- The `while (map.size > maxSize)` eviction loop of `memoryStore.lock`:
evict the oldest non-`processing` entry until the bound holds or no
entry is evictable. -/
def evictLoop (maxSize : Nat) (s : MemState) : MemState :=
  if s.length > maxSize then
    match hev : evictOnce s with
    | none => s
    | some s' => evictLoop maxSize s'
  else s
  termination_by s.length
  decreasing_by
    simp only [evictOnce] at hev
    split at hev
    · exact absurd hev (by simp)
    · rename_i e hfind
      cases hev
      exact List.length_filter_lt_length_iff_exists.mpr
        ⟨e, List.mem_of_find?_eq_some hfind, by simp⟩

/-- Model of `memoryStore.lock`: sweep expired entries, refuse when a live
record occupies the key, otherwise insert the record and run the
bounded-size eviction loop. -/
def memLock (ttl : Int) (maxSize : Option Nat) (now : Int) (s : MemState)
    (k : String) (r : IdemRecord) : Bool × MemState :=
  let s1 := sweep ttl now s
  match mapGet s1 k with
  | some existing =>
    if ¬ isExpired ttl now existing.createdAt then (false, s1)
    else
      let s2 := mapSet s1 k r
      (true, match maxSize with | some m => evictLoop m s2 | none => s2)
  | none =>
    let s2 := mapSet s1 k r
    (true, match maxSize with | some m => evictLoop m s2 | none => s2)

/-- Model of `memoryStore.complete`: when the key is present, set status to
`completed` and attach the response (in place, no expiry check). -/
def memComplete (s : MemState) (k : String) (resp : StoredResponse) : MemState :=
  s.map (fun e =>
    if e.1 == k then
      (e.1, { e.2 with status := RecStatus.completed, response := some resp })
    else e)

/-- Model of `memoryStore.delete`. -/
def memDelete (s : MemState) (k : String) : MemState :=
  mapDelete s k

/-- Model of `memoryStore.purge`: delete every expired entry, counting them. -/
def memPurge (ttl now : Int) (s : MemState) : Nat × MemState :=
  ((s.filter (fun e => isExpired ttl now e.2.createdAt)).length,
    s.filter (fun e => ! isExpired ttl now e.2.createdAt))

/-! ## Durable Object store (`src/stores/cloudflare-kv.ts`, `durableObjectStore`) -/

/-- The Durable Object storage: a key-value map (single-writer, so
each operation is atomic). -/
abbrev DOState := List (String × IdemRecord)

/-- Model of `durableObjectStore.get`: absent or expired ↦ `undefined` (expired
records are left in place). -/
def doGet (ttl now : Int) (s : DOState) (k : String) : Option IdemRecord :=
  match mapGet s k with
  | none => none
  | some r => if isExpired ttl now r.createdAt then none else some r

/-- Model of `durableObjectStore.lock`: plain read-check-then-write, relying on
the Durable Object single-writer guarantee. -/
def doLock (ttl now : Int) (s : DOState) (k : String) (r : IdemRecord) :
    Bool × DOState :=
  match mapGet s k with
  | some existing =>
    if ¬ isExpired ttl now existing.createdAt then (false, s)
    else (true, mapSet s k r)
  | none => (true, mapSet s k r)

/-! ## Redis store (`src/stores/redis.ts`)

The Redis client (`RedisClientLike`) is an external collaborator: a
string-keyed string store whose expiry is handled backend-side (`EX`).
`JSON.parse` is modelled by a `parse` function returning `none` where
the real call throws a `SyntaxError` (a corrupt stored payload), and
`JSON.stringify` of a record by a total `stringify` (it cannot throw on
an `IdempotencyRecord`). A store operation that lets the `JSON.parse`
exception escape is `Except.error ()`. -/

/-- One Redis value: the stored string and the `EX` seconds the adapter
passed on the write (expiry is the backend's business). -/
structure RedisEntry where
  value : String
  ex : Option Int
  deriving Repr, DecidableEq

abbrev RedisState := List (String × RedisEntry)

/-- Model of `client.get(key)`. -/
def rGet (s : RedisState) (k : String) : Option String :=
  (mapGet s k).map (·.value)

/-- Model of `redisStore.get`: `JSON.parse(raw)` is returned unguarded, so a
corrupt payload makes `get` throw instead of reporting absence. -/
def redisGet (parse : String → Option IdemRecord) (s : RedisState)
    (k : String) : Except Unit (Option IdemRecord) :=
  match rGet s k with
  | none => Except.ok none
  | some raw =>
    match parse raw with
    | none => Except.error ()
    | some r => Except.ok (some r)

/-- Model of `redisStore.lock`: `SET key value NX EX ttl`; true iff the reply
is `"OK"` (i.e. no live value existed). -/
def redisLock (stringify : IdemRecord → String) (ttl : Int) (s : RedisState)
    (k : String) (r : IdemRecord) : Bool × RedisState :=
  match rGet s k with
  | some _ => (false, s)
  | none => (true, mapSet s k ⟨stringify r, some ttl⟩)

/-- Model of `redisStore.complete`: read back, re-parse (unguarded), attach the
response and rewrite with the *remaining* TTL
(`max 1 (ttl - floor((now - createdAt) / 1000))`). -/
def redisComplete (parse : String → Option IdemRecord)
    (stringify : IdemRecord → String) (ttl now : Int) (s : RedisState)
    (k : String) (resp : StoredResponse) : Except Unit RedisState :=
  match rGet s k with
  | none => Except.ok s
  | some raw =>
    match parse raw with
    | none => Except.error ()
    | some r =>
      let r' := { r with status := RecStatus.completed, response := some resp }
      let elapsed := Int.fdiv (now - r.createdAt) 1000
      let remaining := max 1 (ttl - elapsed)
      Except.ok (mapSet s k ⟨stringify r', some remaining⟩)

end HonoIdempotency

namespace HonoIdempotency

/-! ## Error model (`src/errors.ts`) -/

/-- Model of `ProblemDetail` from `src/errors.ts` (the `code` field holds the
`IdempotencyErrorCode` string). -/
structure ProblemDetail where
  type : String
  title : String
  status : Nat
  detail : String
  code : String
  deriving Repr, DecidableEq

/-- Model of `clampHttpStatus`: statuses outside 200–599 become 500 (the `NaN`
branch has no counterpart for `Nat`). -/
def clampHttpStatus (status : Nat) : Nat :=
  if status < 200 ∨ status > 599 then 500 else status

def errBaseUrl : String := "https://hono-idempotency.dev/errors"

/-- Model of `IdempotencyErrors.missingKey()`. -/
def missingKeyErr : ProblemDetail :=
  { type := errBaseUrl ++ "/missing-key"
    title := "Idempotency-Key header is required"
    status := 400
    detail := "This endpoint requires an Idempotency-Key header"
    code := "MISSING_KEY" }

/-- Model of `IdempotencyErrors.keyTooLong(maxLength)`. -/
def keyTooLongErr (maxLength : Nat) : ProblemDetail :=
  { type := errBaseUrl ++ "/key-too-long"
    title := "Idempotency-Key is too long"
    status := 400
    detail := "Idempotency-Key must be at most " ++ toString maxLength
      ++ " characters"
    code := "KEY_TOO_LONG" }

/-- Model of `IdempotencyErrors.bodyTooLarge(maxSize)`. -/
def bodyTooLargeErr (maxSize : Nat) : ProblemDetail :=
  { type := errBaseUrl ++ "/body-too-large"
    title := "Request body is too large"
    status := 413
    detail := "Request body must be at most " ++ toString maxSize ++ " bytes"
    code := "BODY_TOO_LARGE" }

/-- Model of `IdempotencyErrors.fingerprintMismatch()`. -/
def fingerprintMismatchErr : ProblemDetail :=
  { type := errBaseUrl ++ "/fingerprint-mismatch"
    title := "Idempotency-Key is already used with a different request"
    status := 422
    detail := "A request with the same idempotency key but different parameters was already processed"
    code := "FINGERPRINT_MISMATCH" }

/-- Model of `IdempotencyErrors.conflict()`. -/
def conflictErr : ProblemDetail :=
  { type := errBaseUrl ++ "/conflict"
    title := "A request is outstanding for this idempotency key"
    status := 409
    detail := "A request with the same idempotency key is currently being processed"
    code := "CONFLICT" }

/-! ## Fetch `Response` / `Headers` model

A `Headers` object normalizes header names to ASCII lowercase and keeps
one value per name (`set` overwrites). -/

/-- ASCII lowercasing as performed by `Headers` name normalization and
by `String.prototype.toLowerCase` on header names. -/
def asciiLower (c : Char) : Char :=
  if 'A' ≤ c ∧ c ≤ 'Z' then Char.ofNat (c.toNat + 32) else c

def strLower (s : String) : String :=
  ⟨s.data.map asciiLower⟩

/-- Model of `headers.set(name, value)`. -/
def hSet (hs : List (String × String)) (name v : String) :
    List (String × String) :=
  mapSet hs (strLower name) v

/-- Model of `new Headers(init)`: later entries for the same normalized name win. -/
def hMake (init : List (String × String)) : List (String × String) :=
  init.foldl (fun acc kv => hSet acc kv.1 kv.2) []

/-- Model of `headers.get(name)`. -/
def hGet (hs : List (String × String)) (name : String) : Option String :=
  mapGet hs (strLower name)

/-- A fetch `Response`: status, headers, body text (already read). -/
structure HttpResponse where
  status : Nat
  headers : List (String × String)
  body : String
  deriving Repr, DecidableEq

/-- The serialized problem body written by `problemResponse`
(`JSON.stringify(problem)`; the problem fields contain no characters
needing JSON escaping, which the statements below never rely on). -/
def serializeProblem (p : ProblemDetail) : String :=
  "\x7b\"type\":\"" ++ p.type ++ "\",\"title\":\"" ++ p.title
    ++ "\",\"status\":" ++ toString p.status ++ ",\"detail\":\"" ++ p.detail
    ++ "\",\"code\":\"" ++ p.code ++ "\"\x7d"

/-- Model of `problemResponse(problem, extraHeaders)` from `src/errors.ts`:
problem+json body, clamped status, `Content-Type` then the extra
headers spread over it. (`JSON.stringify` cannot throw on a
`ProblemDetail`, so the `catch` branch is unreachable.) -/
def problemResponse (p : ProblemDetail) (extra : List (String × String)) :
    HttpResponse :=
  { status := clampHttpStatus p.status
    headers := hMake ([("Content-Type", "application/problem+json")] ++ extra)
    body := serializeProblem p }

/-! ## Middleware (`src/middleware.ts`) -/

/-- The `errorResponse` closure in `idempotency`: a configured `onError`
takes the whole response over (extra headers are not applied to it);
otherwise the optional `hono-problem-details` renderer (modelled as an
opaque `pdLib` function, the library being an external collaborator)
with the extra headers `set` on its response; otherwise the built-in
`problemResponse` fallback. -/
def errorResponse (onError : Option (ProblemDetail → HttpResponse))
    (pdLib : Option (ProblemDetail → HttpResponse))
    (p : ProblemDetail) (extra : List (String × String)) : HttpResponse :=
  match onError with
  | some f => f p
  | none =>
    match pdLib with
    | some render =>
      extra.foldl (fun r kv => { r with headers := hSet r.headers kv.1 kv.2 })
        (render p)
    | none => problemResponse p extra

/-- Shorthand record constructor used by concrete witnesses. -/
def mkRec (k fp : String) (st : RecStatus) (resp : Option StoredResponse)
    (t : Int) : IdemRecord :=
  { key := k, fingerprint := fp, status := st, response := resp, createdAt := t }

/-! ## `encodeURIComponent`

The middleware URL-encodes the raw key and the cache-key namespace
before concatenating them into the composite store key.
`encodeURIComponent` leaves the unreserved characters
`A–Z a–z 0–9 - _ . ! ~ * ' ( )` as-is and replaces every other
character by the `%XX` (uppercase hex) encoding of each byte of its
UTF-8 encoding. `Char` is exactly a Unicode scalar value, the domain
on which `encodeURIComponent` is total (lone surrogates throw). -/

/-- Characters `encodeURIComponent` leaves unescaped. -/
def uriUnreserved (c : Char) : Bool :=
  c.isAlpha || c.isDigit ||
    (c = '-' || c = '_' || c = '.' || c = '!' || c = '~' || c = '*' ||
      c = '\'' || c = '(' || c = ')')

/-- Uppercase hex digit for `n < 16`. -/
def hexDigit (n : Nat) : Char :=
  if n < 10 then Char.ofNat ('0'.toNat + n) else Char.ofNat ('A'.toNat + n - 10)

/-- Standard UTF-8 encoding of a code point (arithmetic form). -/
def utf8Bytes (n : Nat) : List Nat :=
  if n < 0x80 then [n]
  else if n < 0x800 then [0xC0 + n / 0x40, 0x80 + n % 0x40]
  else if n < 0x10000 then
    [0xE0 + n / 0x1000, 0x80 + (n / 0x40) % 0x40, 0x80 + n % 0x40]
  else
    [0xF0 + n / 0x40000, 0x80 + (n / 0x1000) % 0x40,
      0x80 + (n / 0x40) % 0x40, 0x80 + n % 0x40]

/-- Model of `%XX` percent-escape of one byte. -/
def pctByte (b : Nat) : List Char :=
  ['%', hexDigit (b / 16), hexDigit (b % 16)]

/-- Encoding of a single character. -/
def encChar (c : Char) : List Char :=
  if uriUnreserved c then [c] else (utf8Bytes c.toNat).flatMap pctByte

/-- Model of `encodeURIComponent(s)`. -/
def encodeURIComponent (s : String) : String :=
  ⟨s.data.flatMap encChar⟩

/-! Verification helpers: a left inverse of the percent-encoding,
used only to prove `encodeURIComponent` injective. -/

/-- Value of an uppercase hex digit (inverse of `hexDigit`). -/
def hexVal (c : Char) : Option Nat :=
  if '0' ≤ c ∧ c ≤ '9' then some (c.toNat - '0'.toNat)
  else if 'A' ≤ c ∧ c ≤ 'F' then some (c.toNat - 'A'.toNat + 10)
  else none

/-- Parse one `%XX` group (inverse of `pctByte`). -/
def pctDecode : List Char → Option (Nat × List Char)
  | '%' :: h :: l :: r =>
    match hexVal h, hexVal l with
    | some a, some b => some (a * 16 + b, r)
    | _, _ => none
  | _ => none

/-- Parse one percent-encoded UTF-8 scalar (inverse of
`(utf8Bytes n).flatMap pctByte`). -/
def utf8Decode (l : List Char) : Option (Nat × List Char) :=
  match pctDecode l with
  | none => none
  | some (b0, r0) =>
    if b0 < 0x80 then some (b0, r0)
    else if b0 < 0xE0 then
      match pctDecode r0 with
      | some (b1, r1) => some ((b0 - 0xC0) * 0x40 + (b1 - 0x80), r1)
      | none => none
    else if b0 < 0xF0 then
      match pctDecode r0 with
      | some (b1, r1) =>
        match pctDecode r1 with
        | some (b2, r2) =>
          some ((b0 - 0xE0) * 0x1000 + (b1 - 0x80) * 0x40 + (b2 - 0x80), r2)
        | none => none
      | none => none
    else
      match pctDecode r0 with
      | some (b1, r1) =>
        match pctDecode r1 with
        | some (b2, r2) =>
          match pctDecode r2 with
          | some (b3, r3) =>
            some ((b0 - 0xF0) * 0x40000 + (b1 - 0x80) * 0x1000
              + (b2 - 0x80) * 0x40 + (b3 - 0x80), r3)
          | none => none
        | none => none
      | none => none

/-- Composite store key (`src/middleware.ts` lines 77–82):
`[enc(prefix) ":"] method ":" path ":" enc(key)`. The namespace
argument models `cacheKeyPrefix` after resolving the per-request
function form. -/
def buildStoreKey (keyNS : Option String) (method path rawKey : String) :
    String :=
  let encodedKey := encodeURIComponent rawKey
  let baseKey := method ++ ":" ++ path ++ ":" ++ encodedKey
  match keyNS with
  | some ns => encodeURIComponent ns ++ ":" ++ baseKey
  | none => baseKey

/-! ## Fingerprinting (`src/fingerprint.ts`)

`generateFingerprint` SHA-256-hashes `method ":" path ":" body`; the
hash itself is a host primitive, modelled as an opaque digest
function. -/

/-- Model of `generateFingerprint(method, path, body)`, with `hashF` standing
for the hex-encoded SHA-256 digest. -/
def generateFingerprint (hashF : String → String)
    (method path body : String) : String :=
  hashF (method ++ ":" ++ path ++ ":" ++ body)

/-! ## The `idempotency` middleware proper -/

/-- The store operations the middleware consumes
(`src/stores/types.ts`), as state transformers over a store state `σ`
with the clock passed explicitly (`purge` is never called by the
middleware and is omitted here). -/
structure StoreOps (σ : Type) where
  get : Int → σ → String → Option IdemRecord × σ
  lock : Int → σ → String → IdemRecord → Bool × σ
  complete : σ → String → StoredResponse → σ
  delete : σ → String → σ

/-- Model of `memoryStore` packaged as `StoreOps` (`ttl`/`maxSize` from
`MemoryStoreOptions`). -/
def memOps (ttl : Int) (maxSize : Option Nat) : StoreOps MemState :=
  { get := memGet ttl
    lock := memLock ttl maxSize
    complete := memComplete
    delete := memDelete }

/-- The per-request view the middleware reads from the Hono context:
method, path, body text, and the value of the `Idempotency-Key`
header (i.e. `c.req.header(headerName)`, the framework's header lookup
being an external collaborator). -/
structure Request where
  method : String
  path : String
  body : String
  header : Option String
  deriving Repr, DecidableEq

/-- Model of `IdempotencyOptions` (`src/types.ts`) after resolving the Hono
context dependencies: `skipRequest` and custom `fingerprint` become
functions of the request view, `cacheKeyPrefix` is the resolved value
(`keyNS`), and `pdLib` is the lazily-resolved optional
`hono-problem-details` renderer. `onCacheHit`/`onCacheMiss` hooks are
fire-and-forget with errors swallowed (`safeHook`), so they have no
effect on any observable modelled here and are omitted. -/
structure MwOptions (σ : Type) where
  store : StoreOps σ
  hashF : String → String
  fingerprint : Option (Request → String) := none
  required : Bool := false
  methods : List String := ["POST", "PATCH"]
  maxKeyLength : Nat := 256
  skipRequest : Option (Request → Bool) := none
  onError : Option (ProblemDetail → HttpResponse) := none
  keyNS : Option String := none
  pdLib : Option (ProblemDetail → HttpResponse) := none

/-- Model of `replayResponse(stored)` (`src/middleware.ts` lines 168–176):
rebuild the stored response and mark it `Idempotency-Replayed: true`. -/
def replayResponse (stored : StoredResponse) : HttpResponse :=
  { status := stored.status
    headers := hSet (hMake stored.headers) "Idempotency-Replayed" "true"
    body := stored.body }

/-- Header capture on the success path (`src/middleware.ts` lines
130–136): every response header except the `EXCLUDED_STORE_HEADERS`
(`set-cookie`) goes into the stored snapshot. -/
def captureHeaders (hs : List (String × String)) : List (String × String) :=
  hs.foldl
    (fun acc kv =>
      if strLower kv.1 == "set-cookie" then acc else mapSet acc kv.1 kv.2)
    []

instance {ε α : Type} [DecidableEq ε] [DecidableEq α] :
    DecidableEq (Except ε α) := fun a b =>
  match a, b with
  | .error e, .error e' =>
    if h : e = e' then .isTrue (by rw [h]) else .isFalse (by simp [h])
  | .ok v, .ok v' =>
    if h : v = v' then .isTrue (by rw [h]) else .isFalse (by simp [h])
  | .error _, .ok _ => .isFalse (by simp)
  | .ok _, .error _ => .isFalse (by simp)

/-- Outcome of one middleware run. `bypass` is the method-filter /
`skipRequest` / optional-key passthrough (the handler runs with no
idempotency bookkeeping); `rejected` is a typed-error response;
`raised` re-throws the handler's exception; `failed` returns the
handler's non-2xx response unchanged; `succeeded` returns the rebuilt
2xx response. -/
inductive MwOut (ε : Type) where
  | bypass (result : Except ε HttpResponse)
  | rejected (p : ProblemDetail) (resp : HttpResponse)
  | replayed (resp : HttpResponse)
  | raised (e : ε)
  | failed (resp : HttpResponse)
  | succeeded (resp : HttpResponse)
  deriving Repr, DecidableEq

/-- Result of a middleware run: outcome, final store state, and
whether the wrapped handler (`next`) was invoked. -/
structure MwResult (ε σ : Type) where
  out : MwOut ε
  state : σ
  handlerRan : Bool
  deriving Repr, DecidableEq

/-- The fingerprint the middleware uses: the custom `fingerprint`
option, or `generateFingerprint(method, path, body)`. -/
def mwFingerprint {σ : Type} (opts : MwOptions σ) (req : Request) : String :=
  match opts.fingerprint with
  | some f => f req
  | none => generateFingerprint opts.hashF req.method req.path req.body

/-- Handler delegation outcome and completion/rollback — the code
after `await next()` (`src/middleware.ts` lines 116–151): a thrown
exception deletes the record and re-raises it; a non-2xx response
deletes the record and is returned unchanged; a 2xx response is
captured (headers filtered) into the store and rebuilt for the
caller. -/
def mwFinish {σ ε : Type} (opts : MwOptions σ) (sk : String)
    (handler : Except ε HttpResponse) (st2 : σ) : MwResult ε σ :=
  match handler with
  | .error e => ⟨.raised e, opts.store.delete st2 sk, true⟩
  | .ok res =>
    -- `res.ok` is status 200–299
    if ¬ (200 ≤ res.status ∧ res.status ≤ 299) then
      ⟨.failed res, opts.store.delete st2 sk, true⟩
    else
      let storedResp : StoredResponse :=
        ⟨res.status, captureHeaders res.headers, res.body⟩
      ⟨.succeeded ⟨res.status, res.headers, res.body⟩,
        opts.store.complete st2 sk storedResp, true⟩

/-- Lock acquisition then handler delegation — the part of
`idempotency` after the existing-record inspection fell through
(`src/middleware.ts` lines 101–151). `c.set("idempotencyKey", key)`
and the `safeHook` calls have no modelled effect. -/
def mwProceed {σ ε : Type} (opts : MwOptions σ) (key fp sk : String)
    (handler : Except ε HttpResponse) (st1 : σ) (now : Int) : MwResult ε σ :=
  let record := mkRec key fp RecStatus.processing none now
  let lr := opts.store.lock now st1 sk record
  if ¬ lr.1 then
    ⟨.rejected conflictErr
      (errorResponse opts.onError opts.pdLib conflictErr
        [("Retry-After", "1")]), lr.2, false⟩
  else
    mwFinish opts sk handler lr.2

/-- The existing-record inspection (`src/middleware.ts` lines 86–99):
`processing` → Conflict; different fingerprint → FingerprintMismatch;
completed with a response → replay; completed without one → fall
through to `mwProceed`. -/
def mwInspect {σ ε : Type} (opts : MwOptions σ) (key fp sk : String)
    (handler : Except ε HttpResponse) (existing : Option IdemRecord)
    (st1 : σ) (now : Int) : MwResult ε σ :=
  match existing with
  | some ex =>
    if ex.status = RecStatus.processing then
      ⟨.rejected conflictErr
        (errorResponse opts.onError opts.pdLib conflictErr
          [("Retry-After", "1")]), st1, false⟩
    else if ex.fingerprint ≠ fp then
      ⟨.rejected fingerprintMismatchErr
        (errorResponse opts.onError opts.pdLib fingerprintMismatchErr []),
        st1, false⟩
    else
      match ex.response with
      | some resp => ⟨.replayed (replayResponse resp), st1, false⟩
      | none => mwProceed opts key fp sk handler st1 now
  | none => mwProceed opts key fp sk handler st1 now

/-- One run of the `idempotency` middleware (`src/middleware.ts`):
validation → fingerprint → store-key construction → existing-record
inspection (`mwInspect`) → lock/execute (`mwProceed`). `handler` is
the outcome of `await next()` (the handler's thrown exception or the
response it left in `c.res`); `now` is `Date.now()` for this request. -/
def runIdempotency {σ ε : Type} (opts : MwOptions σ) (req : Request)
    (handler : Except ε HttpResponse) (st : σ) (now : Int) : MwResult ε σ :=
  if ¬ opts.methods.contains req.method then ⟨.bypass handler, st, true⟩
  else if (match opts.skipRequest with | some f => f req | none => false) then
    ⟨.bypass handler, st, true⟩
  else
    match req.header with
    | none =>
      if opts.required then
        ⟨.rejected missingKeyErr
          (errorResponse opts.onError opts.pdLib missingKeyErr []), st, false⟩
      else ⟨.bypass handler, st, true⟩
    | some key =>
      if key.length > opts.maxKeyLength then
        ⟨.rejected (keyTooLongErr opts.maxKeyLength)
          (errorResponse opts.onError opts.pdLib
            (keyTooLongErr opts.maxKeyLength) []), st, false⟩
      else
        let fp := mwFingerprint opts req
        let sk := buildStoreKey opts.keyNS req.method req.path key
        let gr := opts.store.get now st sk
        mwInspect opts key fp sk handler gr.1 gr.2 now

/-- Model of `N` concurrent callers contending on one store key: the JS runtime
is single-threaded, and `memoryStore.lock` suspends at no `await`
inside its check-and-set, so the racing `lock` calls execute as an
arbitrary serialization — a fold over the call times. `mk t` is the
record the caller arriving at time `t` tries to insert (the middleware
always builds it with `createdAt = t` and status `processing`). -/
def lockResults (ttl : Int) (ms : Option Nat) (k : String)
    (mk : Int → IdemRecord) (s : MemState) (ts : List Int) :
    List Bool × MemState :=
  ts.foldl
    (fun acc t =>
      (acc.1 ++ [(memLock ttl ms t acc.2 k (mk t)).1],
        (memLock ttl ms t acc.2 k (mk t)).2))
    ([], s)

/-- Well-formedness of a `Map` state: the JS `Map` holds each key at
most once, which `mapSet`/`mapDelete` preserve on the association-list
model. -/
abbrev keysNodup (s : List (String × α)) : Prop :=
  (s.map Prod.fst).Nodup

/-! ## Association-list lemmas -/

theorem mapGet_nil {α : Type} {k : String} : mapGet ([] : List (String × α)) k = none := rfl

theorem mapGet_cons {α : Type} {k' k : String} {v : α} {s : List (String × α)} :
    mapGet ((k', v) :: s) k = if k' = k then some v else mapGet s k := by
  by_cases h : k' = k
  · rw [if_pos h, mapGet, List.find?_cons_of_pos _ (by simp [h])]
    rfl
  · rw [if_neg h, mapGet, mapGet, List.find?_cons_of_neg _ (by simp [h])]

theorem mapGet_eq_none_iff {α : Type} {s : List (String × α)} {k : String} :
    mapGet s k = none ↔ k ∉ s.map Prod.fst := by
  induction s with
  | nil => simp [mapGet_nil]
  | cons e t ih =>
    obtain ⟨k', v⟩ := e
    rw [mapGet_cons]
    by_cases h : k' = k
    · subst h; simp
    · simp [h, ih, List.mem_cons, Ne.symm h]

theorem mapGet_mem {α : Type} {s : List (String × α)} {k : String} {v : α}
    (h : mapGet s k = some v) : (k, v) ∈ s := by
  induction s with
  | nil => simp [mapGet_nil] at h
  | cons e t ih =>
    obtain ⟨k', v'⟩ := e
    rw [mapGet_cons] at h
    by_cases hk : k' = k
    · simp [hk] at h
      simp [hk, h]
    · simp [hk] at h
      exact List.mem_cons_of_mem _ (ih h)

theorem mapGet_of_mem_nodup {α : Type} {s : List (String × α)} {k : String}
    {v : α} (hnd : keysNodup s) (h : (k, v) ∈ s) : mapGet s k = some v := by
  induction s with
  | nil => simp at h
  | cons e t ih =>
    obtain ⟨k', v'⟩ := e
    rw [mapGet_cons]
    rcases List.mem_cons.mp h with h | h
    · cases h; simp
    · have hk : k' ≠ k := by
        rintro rfl
        exact (List.nodup_cons.mp hnd).1 (List.mem_map.mpr ⟨(k', v), h, rfl⟩)
      simp [hk]
      exact ih (List.nodup_cons.mp hnd).2 h

theorem entry_unique {α : Type} {s : List (String × α)} {x y : String × α}
    (hnd : keysNodup s) (hx : x ∈ s) (hy : y ∈ s) (hk : x.1 = y.1) : x = y := by
  obtain ⟨kx, vx⟩ := x; obtain ⟨ky, vy⟩ := y
  cases hk
  have h1 := mapGet_of_mem_nodup hnd hx
  have h2 := mapGet_of_mem_nodup hnd hy
  rw [h1] at h2
  cases h2; rfl

theorem mapGet_replace {α : Type} {s : List (String × α)} {k : String}
    {v : α} :
    mapGet (s.map (fun e => if e.1 == k then (k, v) else e)) k
      = (List.find? (fun e => e.1 == k) s).map (fun _ => v) := by
  induction s with
  | nil => rfl
  | cons e t ih =>
    obtain ⟨k', v'⟩ := e
    by_cases hk : k' = k
    · rw [List.map_cons, if_pos (by simp [hk]), mapGet_cons, if_pos rfl,
        List.find?_cons_of_pos _ (by simp [hk])]
      rfl
    · rw [List.map_cons, if_neg (by simp [hk]), mapGet_cons, if_neg hk,
        List.find?_cons_of_neg _ (by simp [hk]), ih]

theorem mapGet_replace_ne {α : Type} {s : List (String × α)} {k' k : String}
    {v : α} (h : k' ≠ k) :
    mapGet (s.map (fun e => if e.1 == k' then (k', v) else e)) k
      = mapGet s k := by
  induction s with
  | nil => rfl
  | cons e t ih =>
    obtain ⟨ke, ve⟩ := e
    by_cases hk : ke = k'
    · rw [List.map_cons, if_pos (by simp [hk]), mapGet_cons, if_neg h,
        mapGet_cons, if_neg (by rw [hk]; exact h), ih]
    · rw [List.map_cons, if_neg (by simp [hk]), mapGet_cons, mapGet_cons, ih]

theorem mapGet_append_single {α : Type} {s : List (String × α)}
    {k' k : String} {v : α} :
    mapGet (s ++ [(k', v)]) k
      = if k' = k then some ((mapGet s k).getD v) else mapGet s k := by
  induction s with
  | nil =>
    by_cases h : k' = k <;> simp [h, mapGet_cons, mapGet_nil]
  | cons e t ih =>
    obtain ⟨ke, ve⟩ := e
    rw [List.cons_append, mapGet_cons, mapGet_cons]
    by_cases hk : ke = k
    · by_cases h : k' = k <;> simp [h, hk]
    · simp only [if_neg hk]
      exact ih

theorem mapGet_mapSet_self {α : Type} {s : List (String × α)} {k : String}
    {v : α} : mapGet (mapSet s k v) k = some v := by
  rw [mapSet]
  split
  · rename_i hfind
    rw [mapGet_replace]
    obtain ⟨e, he⟩ := Option.isSome_iff_exists.mp hfind
    rw [he]
    rfl
  · rename_i hfind
    have hnone : mapGet s k = none := by
      rw [mapGet]
      rcases hf : List.find? (fun e => e.1 == k) s with _ | e
      · rw [hf]; rfl
      · exact absurd (by rw [hf]; rfl) hfind
    rw [mapGet_append_single, if_pos rfl, hnone]
    rfl

theorem mapGet_mapSet_ne {α : Type} {s : List (String × α)} {k' k : String}
    {v : α} (h : k' ≠ k) : mapGet (mapSet s k' v) k = mapGet s k := by
  rw [mapSet]
  split
  · exact mapGet_replace_ne h
  · rw [mapGet_append_single, if_neg h]

theorem mapGet_mapDelete_self {α : Type} {s : List (String × α)}
    {k : String} : mapGet (mapDelete s k) k = none := by
  rw [mapGet_eq_none_iff, mapDelete]
  intro h
  obtain ⟨e, he, hk⟩ := List.mem_map.mp h
  have := List.of_mem_filter he
  simp [hk] at this

theorem mapGet_mapDelete_ne {α : Type} {s : List (String × α)} {k' k : String}
    (h : k' ≠ k) : mapGet (mapDelete s k') k = mapGet s k := by
  induction s with
  | nil => rfl
  | cons e t ih =>
    obtain ⟨ke, ve⟩ := e
    by_cases hk : ke = k'
    · subst hk
      rw [show mapDelete ((ke, ve) :: t) ke = mapDelete t ke by
        simp [mapDelete, List.filter]]
      rw [ih, mapGet_cons, if_neg h]
    · rw [show mapDelete ((ke, ve) :: t) k' = (ke, ve) :: mapDelete t k' by
        simp [mapDelete, List.filter, hk]]
      rw [mapGet_cons, mapGet_cons, ih]

theorem mapGet_filter_some {α : Type} {s : List (String × α)} {k : String}
    {v : α} {p : α → Bool} (h : mapGet s k = some v) (hp : p v = true) :
    mapGet (s.filter (fun e => p e.2)) k = some v := by
  induction s with
  | nil => simp [mapGet_nil] at h
  | cons e t ih =>
    obtain ⟨k', v'⟩ := e
    rw [mapGet_cons] at h
    by_cases hk : k' = k
    · rw [if_pos hk] at h
      cases h
      rw [List.filter_cons, if_pos (by simpa using hp), mapGet_cons, if_pos hk]
    · rw [if_neg hk] at h
      rw [List.filter_cons]
      by_cases hp' : p v' = true
      · rw [if_pos (by simpa using hp'), mapGet_cons, if_neg hk]
        exact ih h
      · rw [if_neg (by simpa using hp')]
        exact ih h

theorem mapGet_filter_of_nodup {α : Type} {s : List (String × α)} {k : String}
    {p : α → Bool} (hnd : keysNodup s) :
    mapGet (s.filter (fun e => p e.2)) k
      = (mapGet s k).bind (fun v => if p v then some v else none) := by
  induction s with
  | nil => simp [mapGet_nil]
  | cons e t ih =>
    obtain ⟨k', v'⟩ := e
    have hnd' : keysNodup t := (List.nodup_cons.mp hnd).2
    have hkt : k' ∉ t.map Prod.fst := (List.nodup_cons.mp hnd).1
    rw [List.filter_cons]
    by_cases hk : k' = k
    · subst hk
      rw [mapGet_cons, if_pos rfl]
      by_cases hp : p v' = true
      · rw [if_pos (by simpa using hp), mapGet_cons, if_pos rfl]
        simp [hp]
      · rw [if_neg (by simpa using hp)]
        have : mapGet (t.filter (fun e => p e.2)) k' = none := by
          rw [mapGet_eq_none_iff]
          intro hmem
          obtain ⟨e, he, hfe⟩ := List.mem_map.mp hmem
          exact hkt (List.mem_map.mpr ⟨e, List.mem_of_mem_filter he, hfe⟩)
        rw [this]
        simp [hp]
    · by_cases hp : p v' = true
      · rw [if_pos (by simpa using hp), mapGet_cons, if_neg hk, mapGet_cons,
          if_neg hk]
        exact ih hnd'
      · rw [if_neg (by simpa using hp), mapGet_cons, if_neg hk]
        exact ih hnd'

theorem keysNodup_filter {α : Type} {s : List (String × α)} {q : String × α → Bool}
    (hnd : keysNodup s) : keysNodup (s.filter q) :=
  ((List.filter_sublist s).map Prod.fst).nodup hnd

theorem keysNodup_mapDelete {α : Type} {s : List (String × α)} {k : String}
    (hnd : keysNodup s) : keysNodup (mapDelete s k) :=
  keysNodup_filter hnd

theorem keysNodup_mapSet {α : Type} {s : List (String × α)} {k : String}
    {v : α} (hnd : keysNodup s) : keysNodup (mapSet s k v) := by
  rw [mapSet]
  split
  · have : (s.map (fun e => if e.1 == k then (k, v) else e)).map Prod.fst
        = s.map Prod.fst := by
      rw [List.map_map]
      apply List.map_congr_left
      intro e _
      by_cases hk : e.1 = k
      · simp [hk]
      · simp [hk]
    rw [keysNodup, this]
    exact hnd
  · rename_i hfind
    have hnone : mapGet s k = none := by
      rw [mapGet]
      rcases hf : List.find? (fun e => e.1 == k) s with _ | e
      · rw [hf]; rfl
      · exact absurd (by rw [hf]; rfl) hfind
    have hk : k ∉ s.map Prod.fst := mapGet_eq_none_iff.mp hnone
    rw [keysNodup, List.map_append, List.nodup_append]
    refine ⟨hnd, by simp, ?_⟩
    intro a ha hb
    simp at hb
    subst hb
    exact hk ha

/-! ## Eviction-loop lemmas (`memoryStore.lock`'s `while` loop) -/

theorem find?_decomp {α : Type} {p : α → Bool} {l : List α} {e : α}
    (h : l.find? p = some e) :
    ∃ l₁ l₂, l = l₁ ++ e :: l₂ ∧ ∀ x ∈ l₁, p x = false := by
  induction l with
  | nil => simp at h
  | cons a t ih =>
    by_cases hp : p a = true
    · rw [List.find?_cons_of_pos _ hp] at h
      cases h
      exact ⟨[], t, by simp⟩
    · rw [List.find?_cons_of_neg _ hp] at h
      obtain ⟨l₁, l₂, heq, hall⟩ := ih h
      refine ⟨a :: l₁, l₂, by simp [heq], ?_⟩
      intro x hx
      rcases List.mem_cons.mp hx with h | h
      · subst h; simpa using hp
      · exact hall x h

theorem evictOnce_length {s s' : MemState} (h : evictOnce s = some s') :
    s'.length < s.length := by
  rw [evictOnce] at h
  split at h
  · exact absurd h (by simp)
  · rename_i e hfind
    cases h
    exact List.length_filter_lt_length_iff_exists.mpr
      ⟨e, List.mem_of_find?_eq_some hfind, by simp⟩

theorem evictOnce_sublist {s s' : MemState} (h : evictOnce s = some s') :
    List.Sublist s' s := by
  rw [evictOnce] at h
  split at h
  · exact absurd h (by simp)
  · rename_i e hfind
    cases h
    exact List.filter_sublist s

theorem evictOnce_nodup {s s' : MemState} (hnd : keysNodup s)
    (h : evictOnce s = some s') : keysNodup s' := by
  rw [evictOnce] at h
  split at h
  · exact absurd h (by simp)
  · cases h; exact keysNodup_mapDelete hnd

theorem evictLoop_stop {m : Nat} {s : MemState} (h : ¬ s.length > m) :
    evictLoop m s = s := by
  rw [evictLoop, if_neg h]

theorem evictLoop_none {m : Nat} {s : MemState} (h : evictOnce s = none) :
    evictLoop m s = s := by
  rw [evictLoop]
  split
  · rw [h]
  · rfl

theorem evictLoop_step {m : Nat} {s s' : MemState} (hlen : s.length > m)
    (h : evictOnce s = some s') : evictLoop m s = evictLoop m s' := by
  rw [evictLoop, if_pos hlen, h]

/-- One pass of the eviction loop removes exactly the first
non-`processing` entry: the `processing` entries survive unchanged, and
the surviving non-`processing` entries are the tail of the original
ones (insertion order). -/
theorem evictOnce_step {s s' : MemState} (hnd : keysNodup s)
    (h : evictOnce s = some s') :
    s.filter (fun e => e.2.status == RecStatus.processing)
        = s'.filter (fun e => e.2.status == RecStatus.processing) ∧
      ∃ e, s.filter (fun e => e.2.status != RecStatus.processing)
        = e :: s'.filter (fun e => e.2.status != RecStatus.processing) := by
  rw [evictOnce] at h
  split at h
  · exact absurd h (by simp)
  · rename_i e hfind
    cases h
    obtain ⟨l₁, l₂, heq, hall⟩ := find?_decomp hfind
    have hpe := List.find?_some hfind
    simp only at hpe
    subst heq
    have hkeys : ∀ x, x ∈ l₁ ∨ x ∈ l₂ → x.1 ≠ e.1 := by
      intro x hx hxe
      rw [keysNodup, List.map_append, List.nodup_append] at hnd
      rcases hx with hx | hx
      · exact hnd.2.2 (List.mem_map.mpr ⟨x, hx, rfl⟩) (by simp [hxe])
      · have := hnd.2.1
        rw [List.map_cons, List.nodup_cons] at this
        exact this.1 (by rw [← hxe]; exact List.mem_map.mpr ⟨x, hx, rfl⟩)
    have hdel : mapDelete (l₁ ++ e :: l₂) e.1 = l₁ ++ l₂ := by
      rw [mapDelete, List.filter_append, List.filter_cons]
      rw [if_neg (by simp)]
      rw [List.filter_eq_self.mpr (fun x hx => by
          simpa using hkeys x (Or.inl hx)),
        List.filter_eq_self.mpr (fun x hx => by
          simpa using hkeys x (Or.inr hx))]
    rw [hdel]
    have hl₁proc : ∀ x ∈ l₁, (x.2.status == RecStatus.processing) = true := by
      intro x hx
      have := hall x hx
      cases hst : x.2.status
      · rfl
      · rw [hst] at this; simp at this
    have hprocE : (e.2.status == RecStatus.processing) = false := by
      cases hst : e.2.status
      · rw [hst] at hpe; simp at hpe
      · rfl
    constructor
    · rw [List.filter_append, List.filter_append, List.filter_cons,
        if_neg (by simp [hprocE])]
    · refine ⟨e, ?_⟩
      rw [List.filter_append, List.filter_append, List.filter_cons,
        if_pos (by simpa using hpe)]
      rw [List.filter_eq_nil_iff.mpr (fun x hx => by simp [hall x hx])]
      simp

/-- A `processing` record survives the whole eviction loop. -/
theorem evictLoop_mapGet_processing {m : Nat} {s : MemState} {k : String}
    {r : IdemRecord} (hnd : keysNodup s) (h : mapGet s k = some r)
    (hproc : r.status = RecStatus.processing) :
    mapGet (evictLoop m s) k = some r := by
  generalize hn : s.length = n
  induction n using Nat.strong_induction_on generalizing s with
  | _ n ih =>
    subst hn
    by_cases hlen : s.length > m
    · rcases hev : evictOnce s with _ | s'
      · rw [evictLoop_none hev]
        exact h
      · rw [evictLoop_step hlen hev]
        have hstep := hev
        rw [evictOnce] at hstep
        split at hstep
        · exact absurd hstep (by simp)
        · rename_i e hfind
          cases hstep
          have hne : e.1 ≠ k := by
            intro hek
            have he : e ∈ s := List.mem_of_find?_eq_some hfind
            have hkr : (k, r) ∈ s := mapGet_mem h
            have := entry_unique hnd he hkr (by rw [hek])
            have hpe := List.find?_some hfind
            rw [this] at hpe
            simp only [hproc] at hpe
            simp at hpe
          exact ih (mapDelete s e.1).length
            (evictOnce_length (by rw [evictOnce, hfind]))
            (keysNodup_mapDelete hnd)
            (by rw [mapGet_mapDelete_ne hne]; exact h) rfl
    · rw [evictLoop_stop hlen]
      exact h

theorem evictLoop_sublist (m : Nat) (s : MemState) :
    List.Sublist (evictLoop m s) s := by
  generalize hn : s.length = n
  induction n using Nat.strong_induction_on generalizing s with
  | _ n ih =>
    subst hn
    by_cases hlen : s.length > m
    · rcases hev : evictOnce s with _ | s'
      · rw [evictLoop_none hev]
      · rw [evictLoop_step hlen hev]
        exact (ih s'.length (evictOnce_length hev) s' rfl).trans
          (evictOnce_sublist hev)
    · rw [evictLoop_stop hlen]

theorem keysNodup_evictLoop {m : Nat} {s : MemState} (hnd : keysNodup s) :
    keysNodup (evictLoop m s) :=
  ((evictLoop_sublist m s).map Prod.fst).nodup hnd

/-- The eviction loop never touches the `processing` entries. -/
theorem evictLoop_filter_processing (m : Nat) (s : MemState)
    (hnd : keysNodup s) :
    (evictLoop m s).filter (fun e => e.2.status == RecStatus.processing)
      = s.filter (fun e => e.2.status == RecStatus.processing) := by
  generalize hn : s.length = n
  induction n using Nat.strong_induction_on generalizing s with
  | _ n ih =>
    subst hn
    by_cases hlen : s.length > m
    · rcases hev : evictOnce s with _ | s'
      · rw [evictLoop_none hev]
      · rw [evictLoop_step hlen hev,
          ih s'.length (evictOnce_length hev) s' (evictOnce_nodup hnd hev) rfl,
          (evictOnce_step hnd hev).1]
    · rw [evictLoop_stop hlen]

/-- The surviving non-`processing` entries are a suffix of the original
ones: eviction removes them oldest-first (insertion order). -/
theorem evictLoop_filter_nonproc_suffix (m : Nat) (s : MemState)
    (hnd : keysNodup s) :
    (evictLoop m s).filter (fun e => e.2.status != RecStatus.processing)
      <:+ s.filter (fun e => e.2.status != RecStatus.processing) := by
  generalize hn : s.length = n
  induction n using Nat.strong_induction_on generalizing s with
  | _ n ih =>
    subst hn
    by_cases hlen : s.length > m
    · rcases hev : evictOnce s with _ | s'
      · rw [evictLoop_none hev]
      · obtain ⟨e, he⟩ := (evictOnce_step hnd hev).2
        rw [evictLoop_step hlen hev, he]
        exact (ih s'.length (evictOnce_length hev) s'
          (evictOnce_nodup hnd hev) rfl).trans (List.suffix_cons e _)
    · rw [evictLoop_stop hlen]

/-- When the loop stops above the bound, nothing was evictable: every
surviving entry is `processing`. -/
theorem evictLoop_over_bound (m : Nat) (s : MemState)
    (h : (evictLoop m s).length > m) :
    (evictLoop m s).filter (fun e => e.2.status != RecStatus.processing)
      = [] := by
  generalize hn : s.length = n
  induction n using Nat.strong_induction_on generalizing s with
  | _ n ih =>
    subst hn
    by_cases hlen : s.length > m
    · rcases hev : evictOnce s with _ | s'
      · rw [evictLoop_none hev] at h ⊢
        rw [evictOnce] at hev
        split at hev
        · rename_i hfind
          exact List.filter_eq_nil_iff.mpr (fun x hx => by
            have := List.find?_eq_none.mp hfind x hx
            simpa using this)
        · exact absurd hev (by simp)
      · rw [evictLoop_step hlen hev] at h ⊢
        exact ih s'.length (evictOnce_length hev) s' h rfl
    · rw [evictLoop_stop hlen] at h
      exact absurd h hlen

/-! ## `memoryStore` operation characterizations -/

theorem memGet_live {ttl now : Int} {s : MemState} {k : String}
    {r : IdemRecord} (h : mapGet s k = some r)
    (hl : isExpired ttl now r.createdAt = false) :
    memGet ttl now s k = (some r, s) := by
  rw [memGet, h]
  simp [hl]

theorem memGet_expired {ttl now : Int} {s : MemState} {k : String}
    {r : IdemRecord} (h : mapGet s k = some r)
    (he : isExpired ttl now r.createdAt = true) :
    memGet ttl now s k = (none, mapDelete s k) := by
  rw [memGet, h]
  simp [he]

theorem memGet_absent {ttl now : Int} {s : MemState} {k : String}
    (h : mapGet s k = none) : memGet ttl now s k = (none, s) := by
  rw [memGet, h]

theorem keysNodup_sweep {ttl now : Int} {s : MemState} (hnd : keysNodup s) :
    keysNodup (sweep ttl now s) :=
  keysNodup_filter hnd

theorem sweep_get_live {ttl now : Int} {s : MemState} {k : String}
    {r : IdemRecord} (h : mapGet s k = some r)
    (hl : isExpired ttl now r.createdAt = false) :
    mapGet (sweep ttl now s) k = some r := by
  rw [sweep]
  exact @mapGet_filter_some _ _ _ _ (fun r => ! isExpired ttl now r.createdAt)
    h (by simp [hl])

theorem sweep_get_none {ttl now : Int} {s : MemState} {k : String}
    (hnd : keysNodup s)
    (h : ∀ r, mapGet s k = some r → isExpired ttl now r.createdAt = true) :
    mapGet (sweep ttl now s) k = none := by
  rw [sweep,
    @mapGet_filter_of_nodup _ _ _ (fun r => ! isExpired ttl now r.createdAt) hnd]
  rcases hm : mapGet s k with _ | r
  · rfl
  · simp [h r hm]

/-- A live record under the key makes `lock` fail, leaving the swept map. -/
theorem memLock_live {ttl now : Int} {ms : Option Nat} {s : MemState}
    {k : String} {r r' : IdemRecord} (h : mapGet s k = some r)
    (hl : isExpired ttl now r.createdAt = false) :
    memLock ttl ms now s k r' = (false, sweep ttl now s) := by
  rw [memLock]
  simp only [sweep_get_live h hl]
  simp [hl]

/-- No live record under the key: `lock` succeeds, inserting the record
into the swept map and running the eviction loop when a bound is set. -/
theorem memLock_fresh {ttl now : Int} {ms : Option Nat} {s : MemState}
    {k : String} {r' : IdemRecord} (hnd : keysNodup s)
    (h : ∀ r, mapGet s k = some r → isExpired ttl now r.createdAt = true) :
    memLock ttl ms now s k r'
      = (true, match ms with
          | some m => evictLoop m (mapSet (sweep ttl now s) k r')
          | none => mapSet (sweep ttl now s) k r') := by
  rw [memLock]
  simp only [sweep_get_none hnd h]

/-! ## Claim C6 -/

/-- Claim C6. For the in-memory and durable-object stores, a record
created at time `T` with TTL `D` is visible (returned by `get`, and
blocks `lock`'s occupancy check) at every time strictly before
`T + D`, and is treated as absent (`get` returns absent, `lock`
succeeds) at every time at or after `T + D` — an inclusive expiry
boundary. -/
theorem c6_ttl_boundary (D T t : Int) (ms : Option Nat)
    (s : MemState) (sd : DOState) (k : String) (r r' : IdemRecord)
    (hnd : keysNodup s) (hm : mapGet s k = some r)
    (hd : mapGet sd k = some r) (hT : r.createdAt = T) :
    (t < T + D →
      (memGet D t s k).1 = some r ∧ (memLock D ms t s k r').1 = false ∧
        doGet D t sd k = some r ∧ (doLock D t sd k r').1 = false) ∧
    (T + D ≤ t →
      (memGet D t s k).1 = none ∧ (memLock D ms t s k r').1 = true ∧
        doGet D t sd k = none ∧ (doLock D t sd k r').1 = true) := by
  constructor
  · intro hlt
    have hexp : isExpired D t r.createdAt = false := by
      simp only [isExpired, ge_iff_le, decide_eq_false_iff_not, not_le]
      omega
    refine ⟨?_, ?_, ?_, ?_⟩
    · rw [memGet_live hm hexp]
    · rw [memLock_live hm hexp]
    · simp only [doGet]
      rw [hd]
      simp [hexp]
    · simp only [doLock]
      rw [hd]
      simp [hexp]
  · intro hge
    have hexp : isExpired D t r.createdAt = true := by
      simp only [isExpired, ge_iff_le, decide_eq_true_eq]
      omega
    have hall : ∀ r'', mapGet s k = some r'' →
        isExpired D t r''.createdAt = true := by
      intro r'' h''
      rw [hm] at h''
      cases h''
      exact hexp
    refine ⟨?_, ?_, ?_, ?_⟩
    · rw [memGet_expired hm hexp]
    · rw [memLock_fresh hnd hall]
    · simp only [doGet]
      rw [hd]
      simp [hexp]
    · simp only [doLock]
      rw [hd]
      simp [hexp]

/-- Concrete check of `c6_ttl_boundary`: a record created at `T = 0`
with `D = 100` is visible at `t = 99` and gone (lockable) at
`t = 100`. -/
theorem c6_ttl_boundary_witness :
    (memGet 100 99 [("k", mkRec "k" "f" RecStatus.processing none 0)] "k").1
        = some (mkRec "k" "f" RecStatus.processing none 0)
      ∧ (memLock 100 (some 5) 100
          [("k", mkRec "k" "f" RecStatus.processing none 0)] "k"
          (mkRec "k" "f" RecStatus.processing none 100)).1 = true := by
  constructor
  · exact ((c6_ttl_boundary 100 0 99 (some 5)
      [("k", mkRec "k" "f" RecStatus.processing none 0)]
      [("k", mkRec "k" "f" RecStatus.processing none 0)] "k"
      (mkRec "k" "f" RecStatus.processing none 0)
      (mkRec "k" "f" RecStatus.processing none 100)
      (by decide) (by decide) (by decide) (by decide)).1 (by decide)).1
  · exact (((c6_ttl_boundary 100 0 100 (some 5)
      [("k", mkRec "k" "f" RecStatus.processing none 0)]
      [("k", mkRec "k" "f" RecStatus.processing none 0)] "k"
      (mkRec "k" "f" RecStatus.processing none 0)
      (mkRec "k" "f" RecStatus.processing none 100)
      (by decide) (by decide) (by decide) (by decide)).2 (by decide)).2).1

/-! ## Claim C8 -/

/-- Claim C8. For the in-memory store with a maximum-entry bound
configured, eviction on overflow removes only records whose status is
not `processing`, in insertion order (the survivors form a sublist of
the store, the `processing` entries all survive, and the surviving
non-`processing` entries are a suffix of the original ones — the
evicted ones are the oldest); a `processing` record is never evicted;
and if no evictable record exists the store exceeds the bound rather
than evicting one. The first conjunct ties the loop to
`memoryStore.lock`: a successful bounded lock ends in exactly
`evictLoop` applied to the post-insert map. -/
theorem c8_bounded_eviction (m : Nat) (ttl now : Int) (s : MemState)
    (k : String) (r' : IdemRecord) (hnd : keysNodup s) :
    ((memLock ttl (some m) now s k r').1 = true →
      (memLock ttl (some m) now s k r').2
        = evictLoop m (mapSet (sweep ttl now s) k r')) ∧
    (∀ s₀ : MemState, keysNodup s₀ →
      (evictLoop m s₀).filter (fun e => e.2.status == RecStatus.processing)
        = s₀.filter (fun e => e.2.status == RecStatus.processing)) ∧
    (∀ s₀ : MemState, keysNodup s₀ →
      (evictLoop m s₀).filter (fun e => e.2.status != RecStatus.processing)
        <:+ s₀.filter (fun e => e.2.status != RecStatus.processing)) ∧
    (∀ s₀ : MemState, List.Sublist (evictLoop m s₀) s₀) ∧
    (∀ s₀ : MemState, (evictLoop m s₀).length > m →
      ∀ e ∈ evictLoop m s₀, e.2.status = RecStatus.processing) := by
  refine ⟨?_, fun s₀ h => evictLoop_filter_processing m s₀ h,
    fun s₀ h => evictLoop_filter_nonproc_suffix m s₀ h,
    fun s₀ => evictLoop_sublist m s₀, ?_⟩
  · intro hlock
    rcases hm : mapGet s k with _ | r
    · rw [memLock_fresh hnd (fun r h => by rw [hm] at h; cases h)]
    · rcases hexp : isExpired ttl now r.createdAt with _ | _
      · rw [memLock_live hm hexp] at hlock
        simp at hlock
      · rw [memLock_fresh hnd
          (fun r'' h => by rw [hm] at h; cases h; exact hexp)]
  · intro s₀ hover e he
    have hnil := evictLoop_over_bound m s₀ hover
    by_contra hne
    have : e ∈ (evictLoop m s₀).filter
        (fun e => e.2.status != RecStatus.processing) := by
      rw [List.mem_filter]
      exact ⟨he, by cases hst : e.2.status
                    · exact absurd hst hne
                    · rfl⟩
    rw [hnil] at this
    simp at this

/-- Concrete check of `c8_bounded_eviction`: locking a third key with
bound 1 evicts the completed record but keeps the `processing` one,
leaving the store over its bound. -/
theorem c8_bounded_eviction_witness :
    (memLock 1000 (some 1) 10
        [("a", mkRec "a" "f" RecStatus.completed none 0),
          ("b", mkRec "b" "f" RecStatus.processing none 0)]
        "c" (mkRec "c" "f" RecStatus.processing none 10)).2
      = [("b", mkRec "b" "f" RecStatus.processing none 0),
          ("c", mkRec "c" "f" RecStatus.processing none 10)] := by
  have h := (c8_bounded_eviction 1 1000 10
    [("a", mkRec "a" "f" RecStatus.completed none 0),
      ("b", mkRec "b" "f" RecStatus.processing none 0)]
    "c" (mkRec "c" "f" RecStatus.processing none 10) (by decide)).1 (by decide)
  rw [h]
  rw [show mapSet (sweep 1000 10
        [("a", mkRec "a" "f" RecStatus.completed none 0),
          ("b", mkRec "b" "f" RecStatus.processing none 0)])
      "c" (mkRec "c" "f" RecStatus.processing none 10)
    = [("a", mkRec "a" "f" RecStatus.completed none 0),
        ("b", mkRec "b" "f" RecStatus.processing none 0),
        ("c", mkRec "c" "f" RecStatus.processing none 10)] from by decide]
  rw [evictLoop_step (by decide) (by decide : evictOnce
      [("a", mkRec "a" "f" RecStatus.completed none 0),
        ("b", mkRec "b" "f" RecStatus.processing none 0),
        ("c", mkRec "c" "f" RecStatus.processing none 10)]
    = some [("b", mkRec "b" "f" RecStatus.processing none 0),
        ("c", mkRec "c" "f" RecStatus.processing none 10)])]
  rw [evictLoop_none (by decide)]

/-! ## Middleware characterization lemmas -/

/-- A request that passes the method filter, is not skipped, carries a
key of admissible length: the middleware proceeds to the existing-record
inspection on the store's `get` result at the composite store key. -/
theorem run_validated {σ ε : Type} (opts : MwOptions σ) (req : Request)
    (handler : Except ε HttpResponse) (st : σ) (now : Int) (key : String)
    (hm : opts.methods.contains req.method = true)
    (hs : opts.skipRequest = none)
    (hk : req.header = some key)
    (hl : key.length ≤ opts.maxKeyLength) :
    runIdempotency opts req handler st now
      = mwInspect opts key (mwFingerprint opts req)
          (buildStoreKey opts.keyNS req.method req.path key) handler
          (opts.store.get now st
            (buildStoreKey opts.keyNS req.method req.path key)).1
          (opts.store.get now st
            (buildStoreKey opts.keyNS req.method req.path key)).2 now := by
  rw [runIdempotency, if_neg (by rw [hm]; simp), hs]
  simp only []
  rw [if_neg (by simp), hk]
  simp only []
  rw [if_neg (by omega)]

/-- No live record under the key: `memoryStore.get` reports absence,
and its state keeps no live record under the key either. -/
theorem memGet_fresh {ttl now : Int} {s : MemState} {k : String}
    (hnd : keysNodup s)
    (hfresh : ∀ r, mapGet s k = some r → isExpired ttl now r.createdAt = true) :
    (memGet ttl now s k).1 = none ∧ keysNodup (memGet ttl now s k).2 ∧
      (∀ r, mapGet (memGet ttl now s k).2 k = some r →
        isExpired ttl now r.createdAt = true) := by
  rcases hm : mapGet s k with _ | r
  · rw [memGet_absent hm]
    exact ⟨rfl, hnd, hfresh⟩
  · rw [memGet_expired hm (hfresh r hm)]
    refine ⟨rfl, keysNodup_mapDelete hnd, ?_⟩
    intro r' h'
    rw [mapGet_mapDelete_self] at h'
    cases h'

/-- No live record under the key: `memoryStore.lock` succeeds and its
final state holds exactly the inserted record under the key (which a
bounded eviction pass cannot remove while it is `processing`). -/
theorem memLock_fresh_state {ttl now : Int} {ms : Option Nat} {s : MemState}
    {k : String} {r' : IdemRecord} (hnd : keysNodup s)
    (hfresh : ∀ r, mapGet s k = some r → isExpired ttl now r.createdAt = true)
    (hproc : r'.status = RecStatus.processing) :
    (memLock ttl ms now s k r').1 = true ∧
      mapGet (memLock ttl ms now s k r').2 k = some r' ∧
      keysNodup (memLock ttl ms now s k r').2 := by
  rw [memLock_fresh hnd hfresh]
  have hndSet : keysNodup (mapSet (sweep ttl now s) k r') :=
    keysNodup_mapSet (keysNodup_sweep hnd)
  rcases ms with _ | m
  · exact ⟨rfl, mapGet_mapSet_self, hndSet⟩
  · exact ⟨rfl,
      evictLoop_mapGet_processing hndSet mapGet_mapSet_self hproc,
      keysNodup_evictLoop hndSet⟩

/-- While a live record `r` stays under the key, every further `lock`
call returns false, whatever the caller's record. -/
theorem locks_fold_false (ttl : Int) (ms : Option Nat) (k : String)
    (mk : Int → IdemRecord) (r : IdemRecord) :
    ∀ (ts : List Int) (acc : List Bool) (s : MemState),
      keysNodup s → mapGet s k = some r →
      (∀ t ∈ ts, isExpired ttl t r.createdAt = false) →
      (ts.foldl
          (fun acc t =>
            (acc.1 ++ [(memLock ttl ms t acc.2 k (mk t)).1],
              (memLock ttl ms t acc.2 k (mk t)).2))
          (acc, s)).1
        = acc ++ List.replicate ts.length false := by
  intro ts
  induction ts with
  | nil =>
    intro acc s _ _ _
    simp
  | cons t ts' ih =>
    intro acc s hnd hget hall
    have hexp : isExpired ttl t r.createdAt = false := hall t (by simp)
    rw [List.foldl_cons]
    simp only [memLock_live hget hexp]
    rw [ih (acc ++ [false]) (sweep ttl t s) (keysNodup_sweep hnd)
      (sweep_get_live hget hexp) (fun t' ht' => hall t' (by simp [ht']))]
    simp [List.replicate_succ]

/-! ## Claim C1 -/

/-- Claim C1. For any fixed store key, across any number of concurrent
callers (serialized by the single-threaded runtime into a sequence of
`lock` calls), exactly one caller's `lock` returns true per liveness
epoch: starting from a state with no live record, the first call
returns true and every further call within the record's lifetime
returns false. A caller whose `lock` returned false is answered with
the Conflict error and the wrapped handler is not invoked; likewise a
caller that already observes a live `processing` record is answered
with Conflict without invoking the handler. -/
theorem c1_lock_exclusivity :
    (∀ (ttl : Int) (ms : Option Nat) (k : String) (mk : Int → IdemRecord)
        (s : MemState) (t₁ : Int) (ts : List Int),
      keysNodup s →
      (∀ r, mapGet s k = some r → isExpired ttl t₁ r.createdAt = true) →
      (mk t₁).createdAt = t₁ → (mk t₁).status = RecStatus.processing →
      (∀ t ∈ ts, t₁ ≤ t ∧ t < t₁ + ttl) →
      (lockResults ttl ms k mk s (t₁ :: ts)).1
        = true :: List.replicate ts.length false) ∧
    (∀ (σ ε : Type) (opts : MwOptions σ) (key fp sk : String)
        (handler : Except ε HttpResponse) (st1 : σ) (now : Int),
      (opts.store.lock now st1 sk
        (mkRec key fp RecStatus.processing none now)).1 = false →
      (mwProceed opts key fp sk handler st1 now).out
          = MwOut.rejected conflictErr
              (errorResponse opts.onError opts.pdLib conflictErr
                [("Retry-After", "1")])
        ∧ (mwProceed opts key fp sk handler st1 now).handlerRan = false) ∧
    (∀ (σ ε : Type) (opts : MwOptions σ) (req : Request)
        (handler : Except ε HttpResponse) (st : σ) (now : Int)
        (key : String) (ex : IdemRecord),
      opts.methods.contains req.method = true → opts.skipRequest = none →
      req.header = some key → key.length ≤ opts.maxKeyLength →
      (opts.store.get now st
        (buildStoreKey opts.keyNS req.method req.path key)).1 = some ex →
      ex.status = RecStatus.processing →
      (runIdempotency opts req handler st now).out
          = MwOut.rejected conflictErr
              (errorResponse opts.onError opts.pdLib conflictErr
                [("Retry-After", "1")])
        ∧ (runIdempotency opts req handler st now).handlerRan = false) := by
  refine ⟨?_, ?_, ?_⟩
  · intro ttl ms k mk s t₁ ts hnd hfresh hCreated hProc hts
    rw [lockResults, List.foldl_cons]
    have hst := @memLock_fresh_state ttl t₁ ms s k (mk t₁) hnd hfresh hProc
    simp only [hst.1]
    have hexpAll : ∀ t ∈ ts, isExpired ttl t (mk t₁).createdAt = false := by
      intro t ht
      rw [hCreated]
      simp only [isExpired, ge_iff_le, decide_eq_false_iff_not, not_le]
      have := hts t ht
      omega
    rw [locks_fold_false ttl ms k mk (mk t₁) ts ([] ++ [true])
      (memLock ttl ms t₁ s k (mk t₁)).2 hst.2.2 hst.2.1 hexpAll]
    simp
  · intro σ ε opts key fp sk handler st1 now hlock
    constructor
    · simp [mwProceed, hlock]
    · simp [mwProceed, hlock]
  · intro σ ε opts req handler st now key ex hm hs hk hl hex hst
    rw [run_validated opts req handler st now key hm hs hk hl, hex]
    constructor
    · simp [mwInspect, hst]
    · simp [mwInspect, hst]

/-- Concrete check of `c1_lock_exclusivity`: three serialized callers
at times 0, 1, 2 on an empty store — only the first `lock` wins — and
a request meeting a live `processing` record is answered with Conflict
without running the handler. -/
theorem c1_lock_exclusivity_witness :
    (lockResults 100 none "k"
        (fun t => mkRec "k" "f" RecStatus.processing none t) [] [0, 1, 2]).1
      = [true, false, false]
    ∧ (runIdempotency
        (⟨memOps 100 none, fun _ => "H", none, false, ["POST", "PATCH"], 256,
          none, none, none, none⟩ : MwOptions MemState)
        ⟨"POST", "/pay", "b", some "k"⟩
        (Except.ok ⟨200, [], "ok"⟩ : Except String HttpResponse)
        [("POST:/pay:k", mkRec "k" "H" RecStatus.processing none 0)]
        5).handlerRan = false := by
  constructor
  · have h := c1_lock_exclusivity.1 100 none "k"
      (fun t => mkRec "k" "f" RecStatus.processing none t) [] 0 [1, 2]
      (by decide)
      (fun r hr => by rw [mapGet_nil] at hr; exact Option.noConfusion hr)
      (by decide) (by decide) (by decide)
    exact h
  · exact (c1_lock_exclusivity.2.2 MemState String
      (⟨memOps 100 none, fun _ => "H", none, false, ["POST", "PATCH"], 256,
        none, none, none, none⟩ : MwOptions MemState)
      ⟨"POST", "/pay", "b", some "k"⟩ (Except.ok ⟨200, [], "ok"⟩)
      [("POST:/pay:k", mkRec "k" "H" RecStatus.processing none 0)] 5 "k"
      (mkRec "k" "H" RecStatus.processing none 0)
      (by decide) rfl rfl (by decide) (by decide) rfl).2

/-! ## Claim C2 -/

/-- Full characterization of a validated run on a fresh key over the
in-memory store: the lock is acquired, and the outcome follows the
handler — exception ⇒ delete + re-raise; non-2xx ⇒ delete + return
unchanged; 2xx ⇒ capture + complete + rebuilt response. -/
theorem run_fresh_total {ε : Type} (ttl : Int) (ms : Option Nat)
    (opts : MwOptions MemState) (req : Request) (key sk : String)
    (st : MemState) (now : Int)
    (hstore : opts.store = memOps ttl ms)
    (hm : opts.methods.contains req.method = true)
    (hs : opts.skipRequest = none)
    (hk : req.header = some key)
    (hl : key.length ≤ opts.maxKeyLength)
    (hsk : sk = buildStoreKey opts.keyNS req.method req.path key)
    (hnd : keysNodup st)
    (hfresh : ∀ r, mapGet st sk = some r →
      isExpired ttl now r.createdAt = true) :
    ∃ stL : MemState,
      mapGet stL sk
          = some (mkRec key (mwFingerprint opts req) RecStatus.processing
              none now)
        ∧ keysNodup stL
        ∧ (∀ e : ε, runIdempotency opts req (Except.error e) st now
            = ⟨MwOut.raised e, memDelete stL sk, true⟩)
        ∧ (∀ res : HttpResponse, ¬ (200 ≤ res.status ∧ res.status ≤ 299) →
            runIdempotency opts req
                (Except.ok res : Except ε HttpResponse) st now
              = ⟨MwOut.failed res, memDelete stL sk, true⟩)
        ∧ (∀ res : HttpResponse, 200 ≤ res.status ∧ res.status ≤ 299 →
            runIdempotency opts req
                (Except.ok res : Except ε HttpResponse) st now
              = ⟨MwOut.succeeded ⟨res.status, res.headers, res.body⟩,
                  memComplete stL sk
                    ⟨res.status, captureHeaders res.headers, res.body⟩,
                  true⟩) := by
  subst hsk
  have run_eq : ∀ (handler : Except ε HttpResponse),
      runIdempotency opts req handler st now
        = mwProceed opts key (mwFingerprint opts req)
            (buildStoreKey opts.keyNS req.method req.path key) handler
            (memGet ttl now st
              (buildStoreKey opts.keyNS req.method req.path key)).2 now := by
    intro handler
    rw [run_validated opts req handler st now key hm hs hk hl, hstore]
    simp only [memOps]
    rw [(memGet_fresh hnd hfresh).1]
    rfl
  obtain ⟨hg1, hgnd, hgf⟩ := memGet_fresh hnd hfresh
  have hlk := @memLock_fresh_state ttl now ms
    (memGet ttl now st (buildStoreKey opts.keyNS req.method req.path key)).2
    (buildStoreKey opts.keyNS req.method req.path key)
    (mkRec key (mwFingerprint opts req) RecStatus.processing none now)
    hgnd hgf rfl
  have hlock : opts.store.lock now
      (memGet ttl now st (buildStoreKey opts.keyNS req.method req.path key)).2
      (buildStoreKey opts.keyNS req.method req.path key)
      (mkRec key (mwFingerprint opts req) RecStatus.processing none now)
      = (true, (memLock ttl ms now
          (memGet ttl now st
            (buildStoreKey opts.keyNS req.method req.path key)).2
          (buildStoreKey opts.keyNS req.method req.path key)
          (mkRec key (mwFingerprint opts req) RecStatus.processing
            none now)).2) := by
    rw [hstore]
    exact Prod.ext hlk.1 rfl
  refine ⟨_, hlk.2.1, hlk.2.2, ?_, ?_, ?_⟩
  · intro e
    rw [run_eq (Except.error e)]
    simp only [mwProceed, hlock]
    rw [if_neg (by simp)]
    simp only [mwFinish, hstore, memOps]
  · intro res hbad
    rw [run_eq (Except.ok res)]
    simp only [mwProceed, hlock]
    rw [if_neg (by simp)]
    simp only [mwFinish]
    rw [if_pos hbad]
    simp only [hstore, memOps]
  · intro res hok
    rw [run_eq (Except.ok res)]
    simp only [mwProceed, hlock]
    rw [if_neg (by simp)]
    simp only [mwFinish]
    rw [if_neg (by simp [hok.1, hok.2])]
    simp only [hstore, memOps]


/-- Claim C2. With the in-memory store, when a validated request finds no
live record (a fresh liveness epoch): if the wrapped handler throws,
the middleware deletes the record stored under the store key and
re-raises the original exception unchanged; if the handler returns a
response with status outside 200–299, it deletes the record and
returns that response unchanged; and on any state without a live
record under the key — in particular the state right after such a
failure — a request with the identical key reaches the handler afresh,
neither replayed nor rejected as a conflict. -/
theorem c2_failure_releases_lock {ε : Type} (ttl : Int) (ms : Option Nat)
    (opts : MwOptions MemState) (req : Request) (key sk : String)
    (st : MemState) (now : Int)
    (hstore : opts.store = memOps ttl ms)
    (hm : opts.methods.contains req.method = true)
    (hs : opts.skipRequest = none)
    (hk : req.header = some key)
    (hl : key.length ≤ opts.maxKeyLength)
    (hsk : sk = buildStoreKey opts.keyNS req.method req.path key)
    (hnd : keysNodup st)
    (hfresh : ∀ r, mapGet st sk = some r →
      isExpired ttl now r.createdAt = true) :
    (∀ e : ε,
      (runIdempotency opts req (Except.error e) st now).out = MwOut.raised e
        ∧ (runIdempotency opts req (Except.error e) st now).handlerRan = true
        ∧ mapGet (runIdempotency opts req (Except.error e) st now).state sk
            = none
        ∧ keysNodup (runIdempotency opts req (Except.error e) st now).state) ∧
    (∀ res : HttpResponse, ¬ (200 ≤ res.status ∧ res.status ≤ 299) →
      (runIdempotency opts req (Except.ok res : Except ε HttpResponse)
          st now).out = MwOut.failed res
        ∧ (runIdempotency opts req (Except.ok res : Except ε HttpResponse)
            st now).handlerRan = true
        ∧ mapGet (runIdempotency opts req
            (Except.ok res : Except ε HttpResponse) st now).state sk = none
        ∧ keysNodup (runIdempotency opts req
            (Except.ok res : Except ε HttpResponse) st now).state) ∧
    (∀ (st' : MemState) (handler' : Except ε HttpResponse) (now' : Int),
      keysNodup st' →
      (∀ r, mapGet st' sk = some r → isExpired ttl now' r.createdAt = true) →
      (runIdempotency opts req handler' st' now').handlerRan = true
        ∧ (∀ p resp,
            (runIdempotency opts req handler' st' now').out
              ≠ MwOut.rejected p resp)
        ∧ (∀ resp,
            (runIdempotency opts req handler' st' now').out
              ≠ MwOut.replayed resp)) := by
  obtain ⟨stL, hL, hLnd, herr, hfail, hsucc⟩ :=
    @run_fresh_total ε ttl ms opts req key sk st now
      hstore hm hs hk hl hsk hnd hfresh
  refine ⟨?_, ?_, ?_⟩
  · intro e
    rw [herr e]
    exact ⟨rfl, rfl, mapGet_mapDelete_self, keysNodup_mapDelete hLnd⟩
  · intro res hbad
    rw [hfail res hbad]
    exact ⟨rfl, rfl, mapGet_mapDelete_self, keysNodup_mapDelete hLnd⟩
  · intro st' handler' now' hnd' hf'
    obtain ⟨stL', hL', hLnd', herr', hfail', hsucc'⟩ :=
      @run_fresh_total ε ttl ms opts req key sk st' now'
        hstore hm hs hk hl hsk hnd' hf'
    rcases handler' with e | res
    · rw [herr' e]
      exact ⟨rfl, fun p resp h => (by cases h), fun resp h => (by cases h)⟩
    · by_cases h2xx : 200 ≤ res.status ∧ res.status ≤ 299
      · rw [hsucc' res h2xx]
        exact ⟨rfl, fun p resp h => (by cases h), fun resp h => (by cases h)⟩
      · rw [hfail' res h2xx]
        exact ⟨rfl, fun p resp h => (by cases h), fun resp h => (by cases h)⟩

/-- Concrete check of `c2_failure_releases_lock`: a throwing handler
re-raises and leaves no record, and the retry with the same key runs
the handler again. -/
theorem c2_failure_releases_lock_witness :
    (runIdempotency
        (⟨memOps 100 none, fun _ => "H", none, false, ["POST", "PATCH"], 256,
          none, none, none, none⟩ : MwOptions MemState)
        ⟨"POST", "/pay", "b", some "k"⟩
        (Except.error "boom" : Except String HttpResponse) [] 0).out
      = MwOut.raised "boom"
    ∧ mapGet (runIdempotency
        (⟨memOps 100 none, fun _ => "H", none, false, ["POST", "PATCH"], 256,
          none, none, none, none⟩ : MwOptions MemState)
        ⟨"POST", "/pay", "b", some "k"⟩
        (Except.error "boom" : Except String HttpResponse) [] 0).state
        "POST:/pay:k" = none
    ∧ (runIdempotency
        (⟨memOps 100 none, fun _ => "H", none, false, ["POST", "PATCH"], 256,
          none, none, none, none⟩ : MwOptions MemState)
        ⟨"POST", "/pay", "b", some "k"⟩
        (Except.ok ⟨201, [], "ok"⟩ : Except String HttpResponse)
        (runIdempotency
          (⟨memOps 100 none, fun _ => "H", none, false, ["POST", "PATCH"], 256,
            none, none, none, none⟩ : MwOptions MemState)
          ⟨"POST", "/pay", "b", some "k"⟩
          (Except.error "boom" : Except String HttpResponse) [] 0).state
        1).handlerRan = true := by
  have h := @c2_failure_releases_lock String 100 none
    (⟨memOps 100 none, fun _ => "H", none, false, ["POST", "PATCH"], 256,
      none, none, none, none⟩ : MwOptions MemState)
    ⟨"POST", "/pay", "b", some "k"⟩ "k" "POST:/pay:k" [] 0
    rfl (by decide) rfl rfl (by decide) (by decide) (by decide)
    (fun r hr => by rw [mapGet_nil] at hr; exact Option.noConfusion hr)
  refine ⟨(h.1 "boom").1, (h.1 "boom").2.2.1, ?_⟩
  exact ((h.2.2 _ (Except.ok ⟨201, [], "ok"⟩) 1 (h.1 "boom").2.2.2
    (fun r hr => by rw [(h.1 "boom").2.2.1] at hr
                    exact Option.noConfusion hr)).1)

/-! ## Claim C3 -/

/-- Claim C3 (behavior of the code as written, contradicting the claim
and the repository's own test). When the inspection finds a live
record that is `completed`, fingerprint-matching, but with no attached
response, the middleware does *not* delete it: it falls through to
`lock`, which finds the live record and fails, so the caller is
answered with Conflict, the handler never runs, and the corrupt record
is still present afterwards. -/
theorem c3_corrupt_record_conflicts {ε : Type} (ttl : Int) (ms : Option Nat)
    (opts : MwOptions MemState) (req : Request) (key sk : String)
    (st : MemState) (now : Int) (ex : IdemRecord)
    (handler : Except ε HttpResponse)
    (hstore : opts.store = memOps ttl ms)
    (hm : opts.methods.contains req.method = true)
    (hs : opts.skipRequest = none)
    (hk : req.header = some key)
    (hl : key.length ≤ opts.maxKeyLength)
    (hsk : sk = buildStoreKey opts.keyNS req.method req.path key)
    (hex : mapGet st sk = some ex)
    (hlive : isExpired ttl now ex.createdAt = false)
    (hcomp : ex.status = RecStatus.completed)
    (hfp : ex.fingerprint = mwFingerprint opts req)
    (hresp : ex.response = none) :
    (runIdempotency opts req handler st now).out
        = MwOut.rejected conflictErr
            (errorResponse opts.onError opts.pdLib conflictErr
              [("Retry-After", "1")])
      ∧ (runIdempotency opts req handler st now).handlerRan = false
      ∧ mapGet (runIdempotency opts req handler st now).state sk = some ex := by
  subst hsk
  rw [run_validated opts req handler st now key hm hs hk hl, hstore]
  simp only [memOps]
  rw [memGet_live hex hlive]
  simp only [mwInspect]
  rw [if_neg (by simp [hcomp]), if_neg (by simp [hfp])]
  simp only [hresp, mwProceed, hstore, memOps]
  rw [memLock_live hex hlive]
  rw [if_pos (by simp)]
  exact ⟨by trivial, by trivial, sweep_get_live hex hlive⟩

/-- Concrete check of `c3_corrupt_record_conflicts`, mirroring the
repository's test "completed record without response deletes corrupt
record and re-executes" (which this code fails): the run returns
Conflict and keeps the corrupt record. -/
theorem c3_corrupt_record_conflicts_witness :
    (runIdempotency
        (⟨memOps 100 none, fun _ => "H", none, false, ["POST", "PATCH"], 256,
          none, none, none, none⟩ : MwOptions MemState)
        ⟨"POST", "/pay", "b", some "k"⟩
        (Except.ok ⟨200, [], "hello"⟩ : Except String HttpResponse)
        [("POST:/pay:k", mkRec "k" "H" RecStatus.completed none 0)] 5).out
      = MwOut.rejected conflictErr
          (errorResponse none none conflictErr [("Retry-After", "1")])
    ∧ (runIdempotency
        (⟨memOps 100 none, fun _ => "H", none, false, ["POST", "PATCH"], 256,
          none, none, none, none⟩ : MwOptions MemState)
        ⟨"POST", "/pay", "b", some "k"⟩
        (Except.ok ⟨200, [], "hello"⟩ : Except String HttpResponse)
        [("POST:/pay:k", mkRec "k" "H" RecStatus.completed none 0)]
        5).handlerRan = false := by
  have h := @c3_corrupt_record_conflicts String 100 none
    (⟨memOps 100 none, fun _ => "H", none, false, ["POST", "PATCH"], 256,
      none, none, none, none⟩ : MwOptions MemState)
    ⟨"POST", "/pay", "b", some "k"⟩ "k" "POST:/pay:k"
    [("POST:/pay:k", mkRec "k" "H" RecStatus.completed none 0)] 5
    (mkRec "k" "H" RecStatus.completed none 0)
    (Except.ok ⟨200, [], "hello"⟩)
    rfl (by decide) rfl rfl (by decide) (by decide) (by decide) (by decide)
    (by decide) (by decide) (by decide)
  exact ⟨h.1, h.2.1⟩

/-! ## Claim C4 -/

/-- Claim C4 (behavior of the code as written, contradicting the claim
and the repository's own tests). The middleware performs no body-size
check at all: no run ever produces a typed error whose code is
`BODY_TOO_LARGE` (its rejections are only the missing-key,
key-too-long, conflict and fingerprint-mismatch errors), and on a
fresh key the handler is reached whatever the size of the request
body. -/
theorem c4_no_body_size_check :
    (∀ (σ ε : Type) (opts : MwOptions σ) (req : Request)
        (handler : Except ε HttpResponse) (st : σ) (now : Int)
        (p : ProblemDetail) (resp : HttpResponse),
      (runIdempotency opts req handler st now).out = MwOut.rejected p resp →
      p.code ≠ "BODY_TOO_LARGE") ∧
    (∀ (ε : Type) (ttl : Int) (ms : Option Nat) (opts : MwOptions MemState)
        (req : Request) (key sk : String) (st : MemState) (now : Int)
        (handler : Except ε HttpResponse),
      opts.store = memOps ttl ms →
      opts.methods.contains req.method = true →
      opts.skipRequest = none →
      req.header = some key →
      key.length ≤ opts.maxKeyLength →
      sk = buildStoreKey opts.keyNS req.method req.path key →
      keysNodup st →
      (∀ r, mapGet st sk = some r → isExpired ttl now r.createdAt = true) →
      (runIdempotency opts req handler st now).handlerRan = true) := by
  constructor
  · intro σ ε opts req handler st now p resp h
    rw [runIdempotency.eq_def] at h
    simp only [mwInspect.eq_def, mwProceed.eq_def, mwFinish.eq_def] at h
    repeat' split at h
    all_goals simp at h
    all_goals obtain ⟨h1, h2⟩ := h
    all_goals subst h1
    all_goals
      simp only [missingKeyErr, keyTooLongErr, conflictErr,
        fingerprintMismatchErr]
    all_goals decide
  · intro ε ttl ms opts req key sk st now handler
      hstore hm hs hk hl hsk hnd hfresh
    obtain ⟨stL, hL, hLnd, herr, hfail, hsucc⟩ :=
      @run_fresh_total ε ttl ms opts req key sk st now
        hstore hm hs hk hl hsk hnd hfresh
    rcases handler with e | res
    · rw [herr e]
    · by_cases h2xx : 200 ≤ res.status ∧ res.status ≤ 299
      · rw [hsucc res h2xx]
      · rw [hfail res h2xx]

set_option maxRecDepth 8192 in
/-- Concrete check of `c4_no_body_size_check`: the one rejection the
code produces on a key-less required run is not `BODY_TOO_LARGE`, and
a 200-byte body still reaches the handler. -/
theorem c4_no_body_size_check_witness :
    "MISSING_KEY" ≠ "BODY_TOO_LARGE"
    ∧ (runIdempotency
        (⟨memOps 100 none, fun _ => "H", none, false, ["POST", "PATCH"], 256,
          none, none, none, none⟩ : MwOptions MemState)
        ⟨"POST", "/p", String.mk (List.replicate 200 'x'), some "k"⟩
        (Except.ok ⟨200, [], "ok"⟩ : Except String HttpResponse)
        [] 0).handlerRan = true := by
  constructor
  · have h := c4_no_body_size_check.1 MemState String
      (⟨memOps 100 none, fun _ => "H", none, true, ["POST", "PATCH"], 256,
        none, none, none, none⟩ : MwOptions MemState)
      ⟨"POST", "/p", "", none⟩
      (Except.ok ⟨200, [], "ok"⟩ : Except String HttpResponse) [] 0
      missingKeyErr (errorResponse none none missingKeyErr [])
      (by decide)
    exact h
  · exact c4_no_body_size_check.2 String 100 none
      (⟨memOps 100 none, fun _ => "H", none, false, ["POST", "PATCH"], 256,
        none, none, none, none⟩ : MwOptions MemState)
      ⟨"POST", "/p", String.mk (List.replicate 200 'x'), some "k"⟩
      "k" "POST:/p:k" [] 0
      (Except.ok ⟨200, [], "ok"⟩ : Except String HttpResponse)
      rfl (by decide) rfl rfl (by decide) (by decide) (by decide)
      (fun r hr => by rw [mapGet_nil] at hr; exact Option.noConfusion hr)

/-! ## Claim C5 -/

/-- Claim C5 (behavior of the code as written, contradicting the claim
and the repository's changeset notes). The Redis store's `get` and
`complete` pass the stored payload to `JSON.parse` unguarded: on a
stored value the parser rejects (a corrupt payload), both operations
raise (`Except.error`) instead of treating the record as absent /
no-op. -/
theorem c5_redis_corrupt_payload_raises
    (parse : String → Option IdemRecord) (stringify : IdemRecord → String)
    (ttl now : Int) (s : RedisState) (k raw : String) (resp : StoredResponse)
    (hraw : rGet s k = some raw) (hbad : parse raw = none) :
    redisGet parse s k = Except.error ()
      ∧ redisComplete parse stringify ttl now s k resp = Except.error () := by
  constructor
  · rw [redisGet.eq_def, hraw]
    simp only [hbad]
  · rw [redisComplete.eq_def, hraw]
    simp only [hbad]

/-- Concrete check of `c5_redis_corrupt_payload_raises`: a stored
value `"corrupt"` that the parser rejects makes `get` and `complete`
throw. -/
theorem c5_redis_corrupt_payload_raises_witness :
    redisGet (fun _ => none) [("k", ⟨"corrupt", none⟩)] "k" = Except.error ()
      ∧ redisComplete (fun _ => none) (fun _ => "{}") 86400 0
          [("k", ⟨"corrupt", none⟩)] "k" ⟨200, [], "ok"⟩ = Except.error () :=
  c5_redis_corrupt_payload_raises (fun _ => none) (fun _ => "{}") 86400 0
    [("k", ⟨"corrupt", none⟩)] "k" "corrupt" ⟨200, [], "ok"⟩
    (by decide) rfl

/-! ## Header-model lemmas -/

theorem hGet_hSet_self {hs : List (String × String)} {n n' v : String}
    (h : strLower n' = strLower n) : hGet (hSet hs n v) n' = some v := by
  rw [hGet, hSet, h]
  exact mapGet_mapSet_self

theorem hGet_hSet_ne {hs : List (String × String)} {n n' v : String}
    (h : strLower n' ≠ strLower n) : hGet (hSet hs n v) n' = hGet hs n' := by
  rw [hGet, hSet, hGet]
  exact mapGet_mapSet_ne (fun he => h he.symm)

theorem mem_mapSet {α : Type} {s : List (String × α)} {k : String} {v : α}
    {e : String × α} (h : e ∈ mapSet s k v) : e = (k, v) ∨ e ∈ s := by
  rw [mapSet] at h
  split at h
  · obtain ⟨e', he', hfe⟩ := List.mem_map.mp h
    by_cases hk : e'.1 = k
    · left
      rw [← hfe]
      simp [hk]
    · right
      rw [← hfe]
      simpa [hk] using he'
  · rcases List.mem_append.mp h with h | h
    · exact Or.inr h
    · simp at h
      exact Or.inl h

theorem hGet_foldl_hSet_none {init : List (String × String)} {n : String} :
    ∀ acc, (∀ e ∈ init, strLower e.1 ≠ strLower n) →
      mapGet acc (strLower n) = none →
      mapGet (init.foldl (fun a kv => hSet a kv.1 kv.2) acc) (strLower n)
        = none := by
  induction init with
  | nil =>
    intro acc _ hacc
    exact hacc
  | cons kv t ih =>
    intro acc hall hacc
    rw [List.foldl_cons]
    refine ih (hSet acc kv.1 kv.2) (fun e he => hall e (by simp [he])) ?_
    rw [hSet]
    rw [mapGet_mapSet_ne (fun he => hall kv (by simp) he)]
    exact hacc

/-- A name absent (after lowercasing) from the init list is absent from
the built `Headers`. -/
theorem hGet_hMake_none {init : List (String × String)} {n : String}
    (hall : ∀ e ∈ init, strLower e.1 ≠ strLower n) :
    hGet (hMake init) n = none := by
  rw [hGet, hMake]
  exact hGet_foldl_hSet_none [] hall rfl

/-- Every captured header name differs from `set-cookie` after
lowercasing (the excluded-header filter). -/
theorem captureHeaders_mem (hs : List (String × String)) :
    ∀ e ∈ captureHeaders hs, strLower e.1 ≠ "set-cookie" := by
  rw [captureHeaders]
  have aux : ∀ (l : List (String × String)) (acc : List (String × String)),
      (∀ e ∈ acc, strLower e.1 ≠ "set-cookie") →
      ∀ e ∈ l.foldl
        (fun acc kv =>
          if strLower kv.1 == "set-cookie" then acc
          else mapSet acc kv.1 kv.2) acc,
        strLower e.1 ≠ "set-cookie" := by
    intro l
    induction l with
    | nil =>
      intro acc hacc
      exact hacc
    | cons kv t ih =>
      intro acc hacc
      rw [List.foldl_cons]
      by_cases hsc : strLower kv.1 = "set-cookie"
      · rw [if_pos (by simp [hsc])]
        exact ih acc hacc
      · rw [if_neg (by simp [hsc])]
        refine ih (mapSet acc kv.1 kv.2) ?_
        intro e he
        rcases mem_mapSet he with h | h
        · rw [h]
          exact hsc
        · exact hacc e h
  exact aux hs [] (by simp)

/-! ## Claim C9 -/

/-- Claim C9. A replayed response reproduces exactly the stored status
code, body, and captured headers of the original response (lookup by
any name other than the marker agrees with the stored snapshot);
headers excluded at capture time — in particular `Set-Cookie` — are
never present on a replay; and the replay additionally carries
`Idempotency-Replayed: true`. The first conjunct ties this to the
middleware: a completed matching record with a stored response is
answered with exactly `replayResponse stored`, without running the
handler. -/
theorem c9_replay_fidelity :
    (∀ (σ ε : Type) (opts : MwOptions σ) (req : Request)
        (handler : Except ε HttpResponse) (st : σ) (now : Int)
        (key : String) (ex : IdemRecord) (stored : StoredResponse),
      opts.methods.contains req.method = true → opts.skipRequest = none →
      req.header = some key → key.length ≤ opts.maxKeyLength →
      (opts.store.get now st
        (buildStoreKey opts.keyNS req.method req.path key)).1 = some ex →
      ex.status = RecStatus.completed →
      ex.fingerprint = mwFingerprint opts req →
      ex.response = some stored →
      (runIdempotency opts req handler st now).out
          = MwOut.replayed (replayResponse stored)
        ∧ (runIdempotency opts req handler st now).handlerRan = false) ∧
    (∀ res : HttpResponse,
      (replayResponse
          ⟨res.status, captureHeaders res.headers, res.body⟩).status
          = res.status
        ∧ (replayResponse
            ⟨res.status, captureHeaders res.headers, res.body⟩).body
            = res.body
        ∧ hGet (replayResponse
            ⟨res.status, captureHeaders res.headers, res.body⟩).headers
            "Set-Cookie" = none
        ∧ hGet (replayResponse
            ⟨res.status, captureHeaders res.headers, res.body⟩).headers
            "Idempotency-Replayed" = some "true") ∧
    (∀ (stored : StoredResponse) (name : String),
      strLower name ≠ "idempotency-replayed" →
      hGet (replayResponse stored).headers name
        = hGet (hMake stored.headers) name) := by
  refine ⟨?_, ?_, ?_⟩
  · intro σ ε opts req handler st now key ex stored
      hm hs hk hl hex hcomp hfp hresp
    rw [run_validated opts req handler st now key hm hs hk hl, hex]
    simp only [mwInspect]
    rw [if_neg (by simp [hcomp]), if_neg (by simp [hfp])]
    simp only [hresp]
    exact ⟨by trivial, by trivial⟩
  · intro res
    refine ⟨rfl, rfl, ?_, ?_⟩
    · rw [replayResponse]
      rw [hGet_hSet_ne (by decide)]
      exact hGet_hMake_none (fun e he => captureHeaders_mem res.headers e he)
    · exact hGet_hSet_self (by decide)
  · intro stored name hname
    rw [replayResponse]
    exact hGet_hSet_ne (by rw [show strLower "Idempotency-Replayed"
      = "idempotency-replayed" from rfl]; exact hname)

/-- Concrete check of `c9_replay_fidelity`: a replay of a captured 201
response with a `Set-Cookie` header and a custom header. -/
theorem c9_replay_fidelity_witness :
    (runIdempotency
        (⟨memOps 100 none, fun _ => "H", none, false, ["POST", "PATCH"], 256,
          none, none, none, none⟩ : MwOptions MemState)
        ⟨"POST", "/pay", "b", some "k"⟩
        (Except.ok ⟨200, [], "ignored"⟩ : Except String HttpResponse)
        [("POST:/pay:k", mkRec "k" "H" RecStatus.completed
          (some ⟨201, [("X-Id", "7")], "done"⟩) 0)] 5).out
      = MwOut.replayed (replayResponse ⟨201, [("X-Id", "7")], "done"⟩)
    ∧ hGet (replayResponse ⟨201,
        captureHeaders [("Set-Cookie", "sid=1"), ("X-Id", "7")],
        "done"⟩).headers "Set-Cookie" = none
    ∧ hGet (replayResponse ⟨201, [("X-Id", "7")], "done"⟩).headers "X-Id"
        = hGet (hMake [("X-Id", "7")]) "X-Id" := by
  refine ⟨?_, ?_, ?_⟩
  · exact (c9_replay_fidelity.1 MemState String
      (⟨memOps 100 none, fun _ => "H", none, false, ["POST", "PATCH"], 256,
        none, none, none, none⟩ : MwOptions MemState)
      ⟨"POST", "/pay", "b", some "k"⟩
      (Except.ok ⟨200, [], "ignored"⟩)
      [("POST:/pay:k", mkRec "k" "H" RecStatus.completed
        (some ⟨201, [("X-Id", "7")], "done"⟩) 0)] 5 "k"
      (mkRec "k" "H" RecStatus.completed
        (some ⟨201, [("X-Id", "7")], "done"⟩) 0)
      ⟨201, [("X-Id", "7")], "done"⟩
      (by decide) rfl rfl (by decide) (by decide) (by decide) (by decide)
      (by decide)).1
  · exact ((c9_replay_fidelity.2.1
      ⟨201, [("Set-Cookie", "sid=1"), ("X-Id", "7")], "done"⟩).2.2).1
  · exact c9_replay_fidelity.2.2 ⟨201, [("X-Id", "7")], "done"⟩ "X-Id"
      (by decide)

/-! ## Claim C10 -/

/-- Claim C10. When a custom `onError` is configured, every typed-error
response is exactly the `Response` returned by `onError`: the extra
headers the default path attaches — in particular the `Retry-After: 1`
hint on Conflict responses — are not added to it. The second conjunct
shows it at middleware level for the Conflict rejection. -/
theorem c10_onError_exact :
    (∀ (f pd : ProblemDetail → HttpResponse) (p : ProblemDetail)
        (extra : List (String × String)),
      errorResponse (some f) pd p extra = f p) ∧
    (∀ (pd : Option (ProblemDetail → HttpResponse))
        (f : ProblemDetail → HttpResponse) (p : ProblemDetail)
        (extra : List (String × String)),
      errorResponse (some f) pd p extra = f p) ∧
    (∀ (σ ε : Type) (opts : MwOptions σ) (req : Request)
        (handler : Except ε HttpResponse) (st : σ) (now : Int)
        (key : String) (ex : IdemRecord) (f : ProblemDetail → HttpResponse),
      opts.onError = some f →
      opts.methods.contains req.method = true → opts.skipRequest = none →
      req.header = some key → key.length ≤ opts.maxKeyLength →
      (opts.store.get now st
        (buildStoreKey opts.keyNS req.method req.path key)).1 = some ex →
      ex.status = RecStatus.processing →
      (runIdempotency opts req handler st now).out
        = MwOut.rejected conflictErr (f conflictErr)) := by
  refine ⟨fun f pd p extra => rfl, fun pd f p extra => rfl, ?_⟩
  intro σ ε opts req handler st now key ex f honerr hm hs hk hl hex hst
  rw [run_validated opts req handler st now key hm hs hk hl, hex]
  simp only [mwInspect]
  rw [if_pos hst, honerr]
  rfl

/-- Concrete check of `c10_onError_exact`: with `onError` returning a
bare 409 response, the Conflict rejection is exactly that response —
no `Retry-After` header. -/
theorem c10_onError_exact_witness :
    (runIdempotency
        (⟨memOps 100 none, fun _ => "H", none, false, ["POST", "PATCH"], 256,
          none, some (fun p => ⟨p.status, [], "custom"⟩), none, none⟩ :
          MwOptions MemState)
        ⟨"POST", "/pay", "b", some "k"⟩
        (Except.ok ⟨200, [], "ok"⟩ : Except String HttpResponse)
        [("POST:/pay:k", mkRec "k" "H" RecStatus.processing none 0)] 5).out
      = MwOut.rejected conflictErr ⟨409, [], "custom"⟩ := by
  have h := c10_onError_exact.2.2 MemState String
    (⟨memOps 100 none, fun _ => "H", none, false, ["POST", "PATCH"], 256,
      none, some (fun p => ⟨p.status, [], "custom"⟩), none, none⟩ :
      MwOptions MemState)
    ⟨"POST", "/pay", "b", some "k"⟩
    (Except.ok ⟨200, [], "ok"⟩)
    [("POST:/pay:k", mkRec "k" "H" RecStatus.processing none 0)] 5 "k"
    (mkRec "k" "H" RecStatus.processing none 0)
    (fun p => ⟨p.status, [], "custom"⟩)
    rfl (by decide) rfl rfl (by decide) (by decide) rfl
  exact h

/-! ## `encodeURIComponent` injectivity and colon-freeness -/

theorem hexVal_hexDigit : ∀ n, n < 16 → hexVal (hexDigit n) = some n := by
  decide

theorem pctDecode_pct {b : Nat} (hb : b < 256) (r : List Char) :
    pctDecode (pctByte b ++ r) = some (b, r) := by
  have h1 : b / 16 < 16 := by omega
  have h2 : b % 16 < 16 := by omega
  simp only [pctByte, List.cons_append, List.nil_append, pctDecode,
    hexVal_hexDigit _ h1, hexVal_hexDigit _ h2]
  rw [show b / 16 * 16 + b % 16 = b from by omega]

theorem utf8Bytes_one {n : Nat} (h : n < 0x80) : utf8Bytes n = [n] := by
  rw [utf8Bytes, if_pos h]

theorem utf8Bytes_two {n : Nat} (h1 : ¬ n < 0x80) (h2 : n < 0x800) :
    utf8Bytes n = [0xC0 + n / 0x40, 0x80 + n % 0x40] := by
  rw [utf8Bytes, if_neg h1, if_pos h2]

theorem utf8Bytes_three {n : Nat} (h1 : ¬ n < 0x80) (h2 : ¬ n < 0x800)
    (h3 : n < 0x10000) :
    utf8Bytes n = [0xE0 + n / 0x1000, 0x80 + (n / 0x40) % 0x40,
      0x80 + n % 0x40] := by
  rw [utf8Bytes, if_neg h1, if_neg h2, if_pos h3]

theorem utf8Bytes_four {n : Nat} (h1 : ¬ n < 0x80) (h2 : ¬ n < 0x800)
    (h3 : ¬ n < 0x10000) :
    utf8Bytes n = [0xF0 + n / 0x40000, 0x80 + (n / 0x1000) % 0x40,
      0x80 + (n / 0x40) % 0x40, 0x80 + n % 0x40] := by
  rw [utf8Bytes, if_neg h1, if_neg h2, if_neg h3]

theorem utf8Decode_encode {n : Nat} (hn : n < 0x110000) (r : List Char) :
    utf8Decode ((utf8Bytes n).flatMap pctByte ++ r) = some (n, r) := by
  by_cases h1 : n < 0x80
  · rw [utf8Bytes_one h1]
    simp only [List.flatMap_cons, List.flatMap_nil, List.append_nil]
    rw [utf8Decode]
    simp only [pctDecode_pct (show n < 256 by omega)]
    rw [if_pos h1]
  · by_cases h2 : n < 0x800
    · rw [utf8Bytes_two h1 h2]
      simp only [List.flatMap_cons, List.flatMap_nil, List.append_nil,
        List.append_assoc]
      rw [utf8Decode]
      simp only [pctDecode_pct (show 0xC0 + n / 0x40 < 256 by omega),
        pctDecode_pct (show 0x80 + n % 0x40 < 256 by omega)]
      rw [if_neg (by omega), if_pos (by omega)]
      rw [show (0xC0 + n / 0x40 - 0xC0) * 0x40 + (0x80 + n % 0x40 - 0x80) = n
        from by omega]
    · by_cases h3 : n < 0x10000
      · rw [utf8Bytes_three h1 h2 h3]
        simp only [List.flatMap_cons, List.flatMap_nil, List.append_nil,
          List.append_assoc]
        rw [utf8Decode]
        simp only [pctDecode_pct (show 0xE0 + n / 0x1000 < 256 by omega),
          pctDecode_pct (show 0x80 + (n / 0x40) % 0x40 < 256 by omega),
          pctDecode_pct (show 0x80 + n % 0x40 < 256 by omega)]
        rw [if_neg (by omega), if_neg (by omega), if_pos (by omega)]
        rw [show (0xE0 + n / 0x1000 - 0xE0) * 0x1000
            + (0x80 + (n / 0x40) % 0x40 - 0x80) * 0x40
            + (0x80 + n % 0x40 - 0x80) = n from by omega]
      · rw [utf8Bytes_four h1 h2 h3]
        simp only [List.flatMap_cons, List.flatMap_nil, List.append_nil,
          List.append_assoc]
        rw [utf8Decode]
        simp only [pctDecode_pct (show 0xF0 + n / 0x40000 < 256 by omega),
          pctDecode_pct (show 0x80 + (n / 0x1000) % 0x40 < 256 by omega),
          pctDecode_pct (show 0x80 + (n / 0x40) % 0x40 < 256 by omega),
          pctDecode_pct (show 0x80 + n % 0x40 < 256 by omega)]
        rw [if_neg (by omega), if_neg (by omega), if_neg (by omega)]
        rw [show (0xF0 + n / 0x40000 - 0xF0) * 0x40000
            + (0x80 + (n / 0x1000) % 0x40 - 0x80) * 0x1000
            + (0x80 + (n / 0x40) % 0x40 - 0x80) * 0x40
            + (0x80 + n % 0x40 - 0x80) = n from by omega]

theorem char_toNat_lt (c : Char) : c.toNat < 0x110000 := by
  rcases c.valid with h | ⟨h1, h2⟩
  · exact Nat.lt_trans h (by norm_num)
  · exact h2

theorem char_toNat_injective {c₁ c₂ : Char} (h : c₁.toNat = c₂.toNat) :
    c₁ = c₂ :=
  Char.ext (UInt32.ext (by simpa [Char.toNat, UInt32.toNat] using h))

theorem utf8_pct_head (n : Nat) :
    ∃ t, (utf8Bytes n).flatMap pctByte = '%' :: t := by
  by_cases h1 : n < 0x80
  · rw [utf8Bytes_one h1]
    exact ⟨_, rfl⟩
  · by_cases h2 : n < 0x800
    · rw [utf8Bytes_two h1 h2]
      exact ⟨_, rfl⟩
    · by_cases h3 : n < 0x10000
      · rw [utf8Bytes_three h1 h2 h3]
        exact ⟨_, rfl⟩
      · rw [utf8Bytes_four h1 h2 h3]
        exact ⟨_, rfl⟩

/-- The per-character chunks of `encodeURIComponent` form a prefix
code: a chunk followed by anything determines the character and the
remainder. -/
theorem encChar_chunk {c₁ c₂ : Char} {r₁ r₂ : List Char}
    (h : encChar c₁ ++ r₁ = encChar c₂ ++ r₂) : c₁ = c₂ ∧ r₁ = r₂ := by
  by_cases u₁ : uriUnreserved c₁ = true <;>
    by_cases u₂ : uriUnreserved c₂ = true
  · rw [encChar, if_pos u₁, encChar, if_pos u₂] at h
    simp only [List.cons_append, List.nil_append, List.cons.injEq] at h
    exact h
  · rw [encChar, if_pos u₁, encChar,
      if_neg (by simpa using u₂)] at h
    obtain ⟨t, ht⟩ := utf8_pct_head c₂.toNat
    rw [ht] at h
    simp only [List.cons_append, List.nil_append, List.cons.injEq] at h
    rw [h.1] at u₁
    exact absurd u₁ (by decide)
  · rw [encChar, if_neg (by simpa using u₁), encChar, if_pos u₂] at h
    obtain ⟨t, ht⟩ := utf8_pct_head c₁.toNat
    rw [ht] at h
    simp only [List.cons_append, List.nil_append, List.cons.injEq] at h
    rw [← h.1] at u₂
    exact absurd u₂ (by decide)
  · rw [encChar, if_neg (by simpa using u₁), encChar,
      if_neg (by simpa using u₂)] at h
    have d₁ := utf8Decode_encode (char_toNat_lt c₁) r₁
    have d₂ := utf8Decode_encode (char_toNat_lt c₂) r₂
    rw [h, d₂] at d₁
    simp only [Option.some.injEq, Prod.mk.injEq] at d₁
    exact ⟨char_toNat_injective d₁.1.symm, d₁.2.symm⟩

theorem encChar_ne_nil (c : Char) : encChar c ≠ [] := by
  rw [encChar]
  split
  · simp
  · obtain ⟨t, ht⟩ := utf8_pct_head c.toNat
    rw [ht]
    simp

theorem encList_inj : ∀ l₁ l₂ : List Char,
    l₁.flatMap encChar = l₂.flatMap encChar → l₁ = l₂ := by
  intro l₁
  induction l₁ with
  | nil =>
    intro l₂ h
    cases l₂ with
    | nil => rfl
    | cons c t =>
      rw [List.flatMap_nil, List.flatMap_cons] at h
      rcases he : encChar c with _ | ⟨x, xs⟩
      · exact absurd he (encChar_ne_nil c)
      · rw [he] at h
        simp at h
  | cons c t ih =>
    intro l₂ h
    cases l₂ with
    | nil =>
      rw [List.flatMap_nil, List.flatMap_cons] at h
      rcases he : encChar c with _ | ⟨x, xs⟩
      · exact absurd he (encChar_ne_nil c)
      · rw [he] at h
        simp at h
    | cons c' t' =>
      rw [List.flatMap_cons, List.flatMap_cons] at h
      obtain ⟨hc, hr⟩ := encChar_chunk h
      rw [hc, ih t' hr]

theorem string_data_ext {s₁ s₂ : String} (h : s₁.data = s₂.data) :
    s₁ = s₂ := by
  cases s₁
  cases s₂
  congr 1

/-- Injectivity of `encodeURIComponent` (it is decodable). -/
theorem encodeURIComponent_inj {s₁ s₂ : String}
    (h : encodeURIComponent s₁ = encodeURIComponent s₂) : s₁ = s₂ := by
  rw [encodeURIComponent, encodeURIComponent] at h
  have hd : s₁.data.flatMap encChar = s₂.data.flatMap encChar := by
    simpa using congrArg String.data h
  exact string_data_ext (encList_inj _ _ hd)

theorem utf8Bytes_lt {n : Nat} (hn : n < 0x110000) :
    ∀ b ∈ utf8Bytes n, b < 256 := by
  by_cases h1 : n < 0x80
  · rw [utf8Bytes_one h1]
    intro b hb
    simp at hb
    omega
  · by_cases h2 : n < 0x800
    · rw [utf8Bytes_two h1 h2]
      intro b hb
      simp at hb
      rcases hb with hb | hb <;> omega
    · by_cases h3 : n < 0x10000
      · rw [utf8Bytes_three h1 h2 h3]
        intro b hb
        simp at hb
        have hm1 : (n / 0x40) % 0x40 < 0x40 := Nat.mod_lt _ (by norm_num)
        rcases hb with hb | hb | hb <;> omega
      · rw [utf8Bytes_four h1 h2 h3]
        intro b hb
        simp at hb
        have hm1 : (n / 0x1000) % 0x40 < 0x40 := Nat.mod_lt _ (by norm_num)
        have hm2 : (n / 0x40) % 0x40 < 0x40 := Nat.mod_lt _ (by norm_num)
        rcases hb with hb | hb | hb | hb <;> omega

theorem hexDigit_ne_colon : ∀ n, n < 16 → hexDigit n ≠ ':' := by
  decide

/-- No chunk of the encoding contains the `':'` delimiter. -/
theorem encChar_ne_colon (c : Char) : ':' ∉ encChar c := by
  rw [encChar]
  split
  · rename_i hu
    intro hmem
    simp at hmem
    rw [← hmem] at hu
    exact absurd hu (by decide)
  · intro hmem
    obtain ⟨b, hb, hmem⟩ := List.mem_flatMap.mp hmem
    have hb256 : b < 256 := utf8Bytes_lt (char_toNat_lt c) b hb
    rw [pctByte] at hmem
    simp only [List.mem_cons, List.not_mem_nil, or_false] at hmem
    rcases hmem with hmem | hmem | hmem
    · exact absurd hmem.symm (by decide)
    · exact absurd hmem.symm (hexDigit_ne_colon _ (by omega))
    · exact absurd hmem.symm (hexDigit_ne_colon _ (by omega))

theorem enc_data_ne_colon (s : String) :
    ':' ∉ (encodeURIComponent s).data := by
  rw [encodeURIComponent]
  intro hmem
  obtain ⟨c, _, hc⟩ := List.mem_flatMap.mp hmem
  exact encChar_ne_colon c hc

/-- Splitting at the first `':'`: colon-free heads before a `':'`
separator are determined. -/
theorem colonfree_split : ∀ (a b r r' : List Char), ':' ∉ a → ':' ∉ b →
    a ++ ':' :: r = b ++ ':' :: r' → a = b ∧ r = r' := by
  intro a
  induction a with
  | nil =>
    intro b r r' _ hb h
    cases b with
    | nil =>
      simp only [List.nil_append, List.cons.injEq] at h
      exact ⟨rfl, h.2⟩
    | cons b₀ bt =>
      rw [List.nil_append, List.cons_append] at h
      have : b₀ = ':' := (List.cons.injEq _ _ _ _ ▸ h).1.symm
      exact absurd (this ▸ List.mem_cons_self b₀ bt) hb
  | cons a₀ at' ih =>
    intro b r r' ha hb h
    cases b with
    | nil =>
      rw [List.nil_append, List.cons_append] at h
      have : a₀ = ':' := (List.cons.injEq _ _ _ _ ▸ h).1
      exact absurd (this ▸ List.mem_cons_self a₀ at') ha
    | cons b₀ bt =>
      rw [List.cons_append, List.cons_append] at h
      obtain ⟨h1, h2⟩ := List.cons.injEq _ _ _ _ ▸ h
      obtain ⟨h3, h4⟩ := ih bt r r'
        (fun hm => ha (List.mem_cons_of_mem _ hm))
        (fun hm => hb (List.mem_cons_of_mem _ hm)) h2
      exact ⟨by rw [h1, h3], h4⟩

/-! ## Claim C7 -/

/-- Claim C7. The composite store key `[enc(prefix) ":"] method ":" path
":" enc(key)` is collision-free across identities: with the same
namespace and the same raw key, two different (method, path) pairs
never produce the same store key (methods are HTTP tokens, so they
contain no `':'`; paths and raw keys may contain `':'` freely), and
with method, path and raw key fixed, two different namespaces never
produce the same store key, even when the raw key or the namespace
contains the `':'` delimiter (both are URL-encoded, and the encoding
is injective and colon-free). -/
theorem c7_store_key_isolation :
    (∀ (ns : Option String) (m₁ p₁ m₂ p₂ k : String),
      ':' ∉ m₁.data → ':' ∉ m₂.data →
      buildStoreKey ns m₁ p₁ k = buildStoreKey ns m₂ p₂ k →
      m₁ = m₂ ∧ p₁ = p₂) ∧
    (∀ (ns₁ ns₂ m p k : String),
      buildStoreKey (some ns₁) m p k = buildStoreKey (some ns₂) m p k →
      ns₁ = ns₂) := by
  have colon_data : (":" : String).data = [':'] := rfl
  have base_split : ∀ (m₁ p₁ m₂ p₂ k : String), ':' ∉ m₁.data →
      ':' ∉ m₂.data →
      m₁.data ++ ':' :: (p₁.data ++ ':' :: (encodeURIComponent k).data)
        = m₂.data ++ ':' :: (p₂.data ++ ':' :: (encodeURIComponent k).data) →
      m₁ = m₂ ∧ p₁ = p₂ := by
    intro m₁ p₁ m₂ p₂ k h₁ h₂ hd
    obtain ⟨hm, hrest⟩ := colonfree_split _ _ _ _ h₁ h₂ hd
    have hp := List.append_cancel_right hrest
    exact ⟨string_data_ext hm, string_data_ext hp⟩
  constructor
  · intro ns m₁ p₁ m₂ p₂ k h₁ h₂ heq
    rcases ns with _ | ns
    · simp only [buildStoreKey] at heq
      have hd := congrArg String.data heq
      simp only [String.data_append, colon_data, List.append_assoc,
        List.singleton_append] at hd
      exact base_split m₁ p₁ m₂ p₂ k h₁ h₂ hd
    · simp only [buildStoreKey] at heq
      have hd := congrArg String.data heq
      simp only [String.data_append, colon_data, List.append_assoc,
        List.singleton_append] at hd
      have hd' := List.append_cancel_left hd
      simp only [List.cons.injEq, true_and] at hd'
      exact base_split m₁ p₁ m₂ p₂ k h₁ h₂ hd'
  · intro ns₁ ns₂ m p k heq
    simp only [buildStoreKey] at heq
    have hd := congrArg String.data heq
    simp only [String.data_append, colon_data, List.append_assoc,
      List.singleton_append] at hd
    obtain ⟨hns, -⟩ := colonfree_split _ _ _ _
      (enc_data_ne_colon ns₁) (enc_data_ne_colon ns₂) hd
    exact encodeURIComponent_inj (string_data_ext hns)

/-- Concrete check of `c7_store_key_isolation` with a raw key and a
namespace both containing the delimiter. -/
theorem c7_store_key_isolation_witness :
    ("POST" = "POST" ∧ "/pay" = "/pay") ∧ "t:1" = "t:1" := by
  constructor
  · exact c7_store_key_isolation.1 none "POST" "/pay" "POST" "/pay" "k:1"
      (by decide) (by decide) rfl
  · exact c7_store_key_isolation.2 "t:1" "t:1" "POST" "/pay" "k:1" rfl

end HonoIdempotency
